import Mathlib

/-!
Verification of `weilrep/mock.py`: vector-valued quasimodular forms
(`WeilRepQuasiModularForm`), their almost-holomorphic completions
(`WeilRepAlmostHolomorphicModularForm`) and mock modular forms
(`WeilRepMockModularForm`).

The module under verification manipulates "base" modular forms through the
interface of the external class `WeilRepModularForm` (weight, Gram matrix,
Fourier expansion as a list of (offset, power series) components, termwise
arithmetic, a zero-form factory and a tensor/direct-sum combinator).  That
external class is modelled here from its documented contract; each such
definition is marked `Modelled from the spec:`.  Everything else is a direct
translation of `mock.py`.

A component power series with rational exponent offset is represented by its
base exponent `val` together with the list of coefficients of
`q ^ val, q ^ (val + 1), ...` up to the big-O precision
`prec = val + coeffs.length` (so a sage series is stored with its coefficient
list extended by zeros up to its precision).
-/

set_option maxHeartbeats 1600000

/-- One component power series of a vector-valued Fourier expansion:
`coeffs[i]` is the coefficient of `q ^ (val + i)`; the series is understood
as `O(q ^ (val + coeffs.length))` beyond the stored range. -/
structure PSeries where
  val : ℤ
  coeffs : List ℚ
deriving DecidableEq, Repr

namespace PSeries

/-- Big-O precision of the series (sage `prec()`). -/
def prec (f : PSeries) : ℤ := f.val + f.coeffs.length

/-- Coefficient of `q ^ n` (0 outside the stored window). -/
def coeff (f : PSeries) (n : ℤ) : ℚ :=
  if n < f.val then 0 else f.coeffs.getD (n - f.val).toNat 0

/-- Sage falsiness of a power series: every stored coefficient is zero. -/
def isZero (f : PSeries) : Bool := f.coeffs.all (· == 0)

/-- Sage `valuation()` of a nonzero series: first exponent with a nonzero
coefficient. -/
def valuation (f : PSeries) : ℤ := f.val + f.coeffs.findIdx (· != 0)

/-- Modelled from the spec: addition of component series of the external
base-form class (coefficientwise; the spec fixes no precision rule for the
external arithmetic, which is modelled exactly). -/
def add (f g : PSeries) : PSeries :=
  let v := min f.val g.val
  let p := max f.prec g.prec
  ⟨v, (List.range (p - v).toNat).map fun (i : ℕ) => f.coeff (v + i) + g.coeff (v + i)⟩

/-- Modelled from the spec: subtraction of component series. -/
def sub (f g : PSeries) : PSeries :=
  let v := min f.val g.val
  let p := max f.prec g.prec
  ⟨v, (List.range (p - v).toNat).map fun (i : ℕ) => f.coeff (v + i) - g.coeff (v + i)⟩

/-- Modelled from the spec: negation of a component series. -/
def neg (f : PSeries) : PSeries := ⟨f.val, f.coeffs.map (fun c => -c)⟩

/-- Modelled from the spec: scalar multiplication of a component series. -/
def smul (c : ℚ) (f : PSeries) : PSeries := ⟨f.val, f.coeffs.map (fun x => c * x)⟩

/-- Modelled from the spec: division of a component series by a scalar. -/
def divc (f : PSeries) (c : ℚ) : PSeries := ⟨f.val, f.coeffs.map (fun x => x / c)⟩

/-- Modelled from the spec: multiplication of component series (Cauchy
product of the stored coefficient windows; offsets are handled by the
caller). -/
def mul (f g : PSeries) : PSeries :=
  if f.coeffs.isEmpty ∨ g.coeffs.isEmpty then ⟨f.val + g.val, []⟩
  else
    ⟨f.val + g.val,
      (List.range (f.coeffs.length + g.coeffs.length - 1)).map fun (m : ℕ) =>
        ∑ i in Finset.range (m + 1), f.coeffs.getD i 0 * g.coeffs.getD (m - i) 0⟩

/-- The local function `a(offset, f)` of `WeilRepQuasiModularForm.derivative`
(mock.py lines 239-244): formal `q`-derivative with exponent offset.  A falsy
series maps to `O(q ^ prec)`; otherwise the result is
`q ^ val * R([(i + offset) * f[i] for i in range(val, prec)])` truncated by
`add_bigoh (prec - floor offset)`. -/
def seriesD (offset : ℚ) (f : PSeries) : PSeries :=
  if f.isZero then ⟨f.prec, []⟩
  else
    let v := f.valuation
    let p := f.prec
    let p2 := p - ⌊offset⌋
    if p2 ≤ v then ⟨p2, []⟩
    else ⟨v, (List.range (p2 - v).toNat).map fun (i : ℕ) =>
      (((v + i : ℤ) : ℚ) + offset) * f.coeff (v + i)⟩

theorem val_le_prec (f : PSeries) : f.val ≤ f.prec := by
  unfold prec
  omega

theorem coeff_of_lt_val (f : PSeries) (n : ℤ) (h : n < f.val) : f.coeff n = 0 := by
  simp [coeff, h]

theorem coeff_of_prec_le (f : PSeries) (n : ℤ) (h : f.prec ≤ n) : f.coeff n = 0 := by
  unfold coeff
  have hv : ¬ n < f.val := by
    unfold prec at h
    omega
  rw [if_neg hv]
  apply List.getD_eq_default
  unfold prec at h
  omega

theorem coeff_mk_range (v : ℤ) (L : ℕ) (g : ℕ → ℚ) (n : ℤ)
    (h1 : v ≤ n) (h2 : n < v + L) :
    coeff ⟨v, (List.range L).map g⟩ n = g (n - v).toNat := by
  unfold coeff
  dsimp only
  rw [if_neg (by omega : ¬ n < v)]
  have hlt : (n - v).toNat < ((List.range L).map g).length := by
    simp only [List.length_map, List.length_range]
    omega
  rw [List.getD_eq_getElem _ _ hlt]
  simp

theorem coeff_mk_range_out (v : ℤ) (L : ℕ) (g : ℕ → ℚ) (n : ℤ)
    (h : ¬ (v ≤ n ∧ n < v + L)) :
    coeff ⟨v, (List.range L).map g⟩ n = 0 := by
  rcases not_and_or.mp h with h1 | h2
  · apply coeff_of_lt_val
    dsimp only
    omega
  · apply coeff_of_prec_le
    unfold prec
    simp only [List.length_map, List.length_range]
    omega

theorem prec_mk_range (v : ℤ) (L : ℕ) (g : ℕ → ℚ) :
    prec ⟨v, (List.range L).map g⟩ = v + L := by
  unfold prec
  simp

/-- Coefficientwise characterisation of `add`, valid at every exponent. -/
theorem coeff_add (f g : PSeries) (n : ℤ) :
    (f.add g).coeff n = f.coeff n + g.coeff n := by
  unfold add
  simp only
  set v := min f.val g.val with hv
  set p := max f.prec g.prec with hp
  have hvf : v ≤ f.val := min_le_left _ _
  have hvg : v ≤ g.val := min_le_right _ _
  have hpf : f.prec ≤ p := le_max_left _ _
  have hpg : g.prec ≤ p := le_max_right _ _
  have hvp : v ≤ p := by
    have := f.val_le_prec
    omega
  by_cases hcase : v ≤ n ∧ n < v + (p - v).toNat
  · rw [coeff_mk_range _ _ _ _ hcase.1 hcase.2]
    have hn : v + ((n - v).toNat : ℤ) = n := by omega
    rw [hn]
  · rw [coeff_mk_range_out _ _ _ _ hcase]
    rcases not_and_or.mp hcase with h1 | h2
    · rw [coeff_of_lt_val f n (by omega), coeff_of_lt_val g n (by omega)]
      norm_num
    · have hpn : p ≤ n := by omega
      rw [coeff_of_prec_le f n (by omega), coeff_of_prec_le g n (by omega)]
      norm_num

theorem coeff_coeffs_nil (v : ℤ) (n : ℤ) : coeff ⟨v, []⟩ n = 0 := by
  unfold coeff
  by_cases h : n < v <;> simp [h]

theorem coeff_of_coeffs_nil (f : PSeries) (h : f.coeffs = []) (n : ℤ) :
    f.coeff n = 0 := by
  unfold coeff
  rw [h]
  by_cases hn : n < f.val <;> simp [hn]

/-- Auxiliary: `getD` with default `0` commutes with a zero-preserving map. -/
theorem getD_map_zero (l : List ℚ) (g : ℚ → ℚ) (hg : g 0 = 0) (i : ℕ) :
    (l.map g).getD i 0 = g (l.getD i 0) := by
  by_cases h : i < l.length
  · rw [List.getD_eq_getElem _ _ (by simpa using h), List.getD_eq_getElem _ _ h]
    simp
  · rw [List.getD_eq_default _ _ (by simpa using not_lt.mp h),
      List.getD_eq_default _ _ (not_lt.mp h), hg]

theorem coeff_neg (f : PSeries) (n : ℤ) : (f.neg).coeff n = -(f.coeff n) := by
  unfold neg coeff
  dsimp only
  by_cases h : n < f.val
  · simp [h]
  · rw [if_neg h, if_neg h, getD_map_zero _ _ (by norm_num)]

theorem coeff_smul (c : ℚ) (f : PSeries) (n : ℤ) :
    (smul c f).coeff n = c * f.coeff n := by
  unfold smul coeff
  dsimp only
  by_cases h : n < f.val
  · simp [h]
  · rw [if_neg h, if_neg h, getD_map_zero _ _ (by norm_num)]

theorem coeff_divc (f : PSeries) (c : ℚ) (n : ℤ) :
    (f.divc c).coeff n = f.coeff n / c := by
  unfold divc coeff
  dsimp only
  by_cases h : n < f.val
  · simp [h]
  · rw [if_neg h, if_neg h, getD_map_zero _ _ (by norm_num)]

theorem coeff_sub (f g : PSeries) (n : ℤ) :
    (f.sub g).coeff n = f.coeff n - g.coeff n := by
  unfold sub
  simp only
  set v := min f.val g.val with hv
  set p := max f.prec g.prec with hp
  have hvf : v ≤ f.val := min_le_left _ _
  have hvg : v ≤ g.val := min_le_right _ _
  have hpf : f.prec ≤ p := le_max_left _ _
  have hpg : g.prec ≤ p := le_max_right _ _
  have hvp : v ≤ p := by
    have := f.val_le_prec
    omega
  by_cases hcase : v ≤ n ∧ n < v + (p - v).toNat
  · rw [coeff_mk_range _ _ _ _ hcase.1 hcase.2]
    have hn : v + ((n - v).toNat : ℤ) = n := by omega
    rw [hn]
  · rw [coeff_mk_range_out _ _ _ _ hcase]
    rcases not_and_or.mp hcase with h1 | h2
    · rw [coeff_of_lt_val f n (by omega), coeff_of_lt_val g n (by omega)]
      norm_num
    · have hpn : p ≤ n := by omega
      rw [coeff_of_prec_le f n (by omega), coeff_of_prec_le g n (by omega)]
      norm_num

theorem isZero_iff (f : PSeries) : f.isZero = true ↔ ∀ n, f.coeff n = 0 := by
  unfold isZero
  rw [List.all_eq_true]
  constructor
  · intro h n
    unfold coeff
    by_cases hn : n < f.val
    · simp [hn]
    · rw [if_neg hn]
      by_cases hL : (n - f.val).toNat < f.coeffs.length
      · rw [List.getD_eq_getElem _ _ hL]
        have := h _ (f.coeffs.getElem_mem hL)
        simpa using this
      · rw [List.getD_eq_default _ _ (not_lt.mp hL)]
  · intro h x hx
    rcases List.getElem_of_mem hx with ⟨i, hi, rfl⟩
    have := h (f.val + i)
    unfold coeff at this
    rw [if_neg (by omega)] at this
    have hidx : ((f.val + i - f.val).toNat) = i := by omega
    rw [hidx, List.getD_eq_getElem _ _ hi] at this
    simpa using this

/-- Coefficientwise characterisation of `mul`, valid at every exponent. -/
theorem coeff_mul (f g : PSeries) (n : ℤ) :
    (f.mul g).coeff n
      = ∑ i in Finset.range f.coeffs.length,
          f.coeffs.getD i 0 * g.coeff (n - f.val - i) := by
  unfold mul
  by_cases hemp : f.coeffs.isEmpty ∨ g.coeffs.isEmpty
  · rw [if_pos hemp]
    rw [coeff_coeffs_nil]
    rcases hemp with h | h
    · rw [List.isEmpty_iff] at h
      rw [h]
      simp
    · rw [List.isEmpty_iff] at h
      symm
      apply Finset.sum_eq_zero
      intro i _
      rw [coeff_of_coeffs_nil g h]
      ring
  · rw [if_neg hemp]
    push_neg at hemp
    have hne1 : f.coeffs ≠ [] := fun h => hemp.1 (by simp [h])
    have hne2 : g.coeffs ≠ [] := fun h => hemp.2 (by simp [h])
    have hl1 : 1 ≤ f.coeffs.length := List.length_pos.mpr hne1
    have hl2 : 1 ≤ g.coeffs.length := List.length_pos.mpr hne2
    set l1 := f.coeffs.length
    set l2 := g.coeffs.length
    set v := f.val + g.val with hv
    set L := l1 + l2 - 1 with hL
    -- a single summand, as a function of the (absolute) row index
    set S : ℕ → ℚ := fun i => f.coeffs.getD i 0 * g.coeff (n - f.val - i) with hS
    have hSvan1 : ∀ i, l1 ≤ i → S i = 0 := by
      intro i hi
      rw [hS]
      dsimp only
      rw [List.getD_eq_default _ _ hi]
      ring
    by_cases hcase : v ≤ n ∧ n < v + L
    · rw [coeff_mk_range _ _ _ _ hcase.1 hcase.2]
      set m := (n - v).toNat with hm
      have hmn : (m : ℤ) = n - v := by omega
      -- rewrite the stored entry as a sum of `S` over `range (m + 1)`
      have hentry : ∑ i in Finset.range (m + 1), f.coeffs.getD i 0 * g.coeffs.getD (m - i) 0
          = ∑ i in Finset.range (m + 1), S i := by
        apply Finset.sum_congr rfl
        intro i hi
        rw [Finset.mem_range] at hi
        rw [hS]
        dsimp only
        congr 1
        unfold coeff
        rw [if_neg (by omega)]
        congr 1
        omega
      rw [hentry]
      -- both sums extend to `range (m + 1 + l1)` because `S` vanishes outside
      have hSvan2 : ∀ i, m < i → S i = 0 := by
        intro i hi
        rw [hS]
        dsimp only
        rw [coeff_of_lt_val g _ (by omega)]
        ring
      rw [Finset.sum_subset (Finset.range_subset.mpr (Nat.le_add_right (m + 1) l1))
          (fun i _ hi => hSvan2 i (by simp only [Finset.mem_range] at hi ⊢; omega))]
      rw [Finset.sum_subset (Finset.range_subset.mpr (by omega : l1 ≤ m + 1 + l1))
          (fun i _ hi => hSvan1 i (by simp only [Finset.mem_range] at hi ⊢; omega))]
    · rw [coeff_mk_range_out _ _ _ _ hcase]
      symm
      apply Finset.sum_eq_zero
      intro i hi
      rw [Finset.mem_range] at hi
      rcases not_and_or.mp hcase with h1 | h2
      · rw [coeff_of_lt_val g _ (by omega)]
        ring
      · by_cases hil : l1 ≤ i
        · rw [List.getD_eq_default _ _ hil]
          ring
        · rw [coeff_of_prec_le g _ (by unfold prec; omega)]
          ring

/-- Denotation of a component series as a finitely supported coefficient
function on `ℤ` (proof infrastructure only; the executable code never uses
it). -/
noncomputable def den (f : PSeries) : AddMonoidAlgebra ℚ ℤ :=
  ∑ i in Finset.range f.coeffs.length,
    AddMonoidAlgebra.single (f.val + i) (f.coeffs.getD i 0)

theorem den_apply (f : PSeries) (n : ℤ) : f.den n = f.coeff n := by
  unfold den
  rw [Finset.sum_apply']
  simp only [Finsupp.single_apply]
  have hprec : f.prec = f.val + f.coeffs.length := rfl
  by_cases hc : f.val ≤ n ∧ n < f.prec
  · have hidx : (n - f.val).toNat < f.coeffs.length := by omega
    rw [Finset.sum_eq_single ((n - f.val).toNat)]
    · rw [if_pos (by omega)]
      unfold coeff
      rw [if_neg (by omega)]
    · intro i hi hne
      rw [Finset.mem_range] at hi
      rw [if_neg (by omega)]
    · intro h
      exact absurd (Finset.mem_range.mpr hidx) h
  · rw [Finset.sum_eq_zero]
    · symm
      rcases not_and_or.mp hc with h | h
      · exact coeff_of_lt_val f n (by omega)
      · exact coeff_of_prec_le f n (by omega)
    · intro i hi
      rw [Finset.mem_range] at hi
      rcases not_and_or.mp hc with h | h <;> rw [if_neg (by omega)]

theorem den_add (f g : PSeries) : (f.add g).den = f.den + g.den := by
  apply Finsupp.ext
  intro n
  rw [Finsupp.add_apply, den_apply, den_apply, den_apply, coeff_add]

theorem den_sub (f g : PSeries) : (f.sub g).den = f.den - g.den := by
  apply Finsupp.ext
  intro n
  rw [Finsupp.sub_apply, den_apply, den_apply, den_apply, coeff_sub]

theorem den_neg (f : PSeries) : (f.neg).den = -f.den := by
  apply Finsupp.ext
  intro n
  rw [Finsupp.neg_apply, den_apply, den_apply, coeff_neg]

theorem den_smul (c : ℚ) (f : PSeries) : (smul c f).den = c • f.den := by
  apply Finsupp.ext
  intro n
  rw [Finsupp.smul_apply, den_apply, den_apply, coeff_smul, smul_eq_mul]

theorem den_divc (f : PSeries) (c : ℚ) : (f.divc c).den = c⁻¹ • f.den := by
  apply Finsupp.ext
  intro n
  rw [Finsupp.smul_apply, den_apply, den_apply, coeff_divc, smul_eq_mul,
    div_eq_inv_mul]

theorem den_mul (f g : PSeries) : (f.mul g).den = f.den * g.den := by
  apply Finsupp.ext
  intro n
  rw [den_apply, coeff_mul]
  conv_rhs => rw [den]
  rw [Finset.sum_mul, Finset.sum_apply']
  apply Finset.sum_congr rfl
  intro i hi
  conv_rhs => rw [den]
  rw [Finset.mul_sum]
  simp only [AddMonoidAlgebra.single_mul_single]
  rw [Finset.sum_apply']
  simp only [Finsupp.single_apply]
  have hgprec : g.prec = g.val + g.coeffs.length := rfl
  by_cases hc : g.val ≤ n - f.val - i ∧ n - f.val - i < g.prec
  · have hidx : (n - f.val - i - g.val).toNat < g.coeffs.length := by omega
    rw [Finset.sum_eq_single ((n - f.val - i - g.val).toNat)]
    · rw [if_pos (by omega)]
      unfold coeff
      rw [if_neg (by omega)]
    · intro j hj hne
      rw [Finset.mem_range] at hj
      rw [if_neg (by omega)]
    · intro h
      exact absurd (Finset.mem_range.mpr hidx) h
  · rw [Finset.sum_eq_zero]
    · rcases not_and_or.mp hc with h | h
      · rw [coeff_of_lt_val g _ (by omega)]
        ring
      · rw [coeff_of_prec_le g _ (by omega)]
        ring
    · intro j hj
      rw [Finset.mem_range] at hj
      rcases not_and_or.mp hc with h | h <;> rw [if_neg (by omega)]

theorem den_eq_zero_iff (f : PSeries) : f.den = 0 ↔ f.isZero = true := by
  rw [isZero_iff]
  constructor
  · intro h n
    rw [← den_apply, h]
    rfl
  · intro h
    apply Finsupp.ext
    intro n
    rw [den_apply, h n]
    rfl

theorem isZero_mul (f g : PSeries) (hf : f.isZero = false) (hg : g.isZero = false) :
    (f.mul g).isZero = false := by
  by_contra h
  rw [Bool.not_eq_false] at h
  have h0 : (f.mul g).den = 0 := (den_eq_zero_iff _).mpr h
  rw [den_mul] at h0
  rcases mul_eq_zero.mp h0 with h1 | h1
  · have := (den_eq_zero_iff f).mp h1
    rw [hf] at this
    exact Bool.false_ne_true this
  · have := (den_eq_zero_iff g).mp h1
    rw [hg] at this
    exact Bool.false_ne_true this

theorem isZero_smul_of_ne (c : ℚ) (f : PSeries) (hc : c ≠ 0) :
    (smul c f).isZero = f.isZero := by
  by_cases h : f.isZero = true
  · rw [h, (isZero_iff _).mpr]
    intro n
    rw [coeff_smul, (isZero_iff f).mp h n, mul_zero]
  · rw [Bool.not_eq_true] at h
    rw [h]
    rw [Bool.eq_false_iff]
    intro habs
    rw [Bool.eq_false_iff] at h
    apply h
    rw [isZero_iff] at habs ⊢
    intro n
    have := habs n
    rw [coeff_smul] at this
    exact (mul_eq_zero.mp this).resolve_left hc

theorem isZero_smul_zero (f : PSeries) : (smul 0 f).isZero = true := by
  rw [isZero_iff]
  intro n
  rw [coeff_smul, zero_mul]

theorem valuation_le_prec (f : PSeries) : f.valuation ≤ f.prec := by
  unfold valuation prec
  have := @List.findIdx_le_length _ (fun c => c != 0) f.coeffs
  omega

theorem coeff_of_lt_valuation (f : PSeries) (n : ℤ) (h : n < f.valuation) :
    f.coeff n = 0 := by
  unfold coeff
  by_cases hv : n < f.val
  · simp [hv]
  · rw [if_neg hv]
    unfold valuation at h
    have hidx : (n - f.val).toNat < f.coeffs.findIdx (· != 0) := by omega
    have hL : (n - f.val).toNat < f.coeffs.length := by
      have := @List.findIdx_le_length _ (fun c => c != 0) f.coeffs
      omega
    rw [List.getD_eq_getElem _ _ hL]
    have := List.not_of_lt_findIdx hidx
    simpa using this

theorem seriesD_of_isZero (o : ℚ) (f : PSeries) (h : f.isZero = true) :
    seriesD o f = ⟨f.prec, []⟩ := by
  unfold seriesD
  rw [if_pos h]

theorem prec_seriesD (o : ℚ) (f : PSeries) (h : f.isZero = false) :
    (seriesD o f).prec = f.prec - ⌊o⌋ := by
  unfold seriesD
  rw [if_neg (by simp [h])]
  dsimp only
  by_cases hcase : f.prec - ⌊o⌋ ≤ f.valuation
  · rw [if_pos hcase]
    unfold prec
    simp
  · rw [if_neg hcase]
    rw [prec_mk_range]
    omega

theorem coeff_seriesD (o : ℚ) (f : PSeries) (h : f.isZero = false) (n : ℤ)
    (hn : n < f.prec - ⌊o⌋) :
    (seriesD o f).coeff n = ((n : ℚ) + o) * f.coeff n := by
  unfold seriesD
  rw [if_neg (by simp [h])]
  dsimp only
  by_cases hcase : f.prec - ⌊o⌋ ≤ f.valuation
  · rw [if_pos hcase, coeff_coeffs_nil]
    rw [coeff_of_lt_valuation f n (by omega), mul_zero]
  · rw [if_neg hcase]
    by_cases hin : f.valuation ≤ n
    · rw [coeff_mk_range _ _ _ _ hin (by omega)]
      have hid : f.valuation + ((n - f.valuation).toNat : ℤ) = n := by omega
      rw [hid]
    · rw [coeff_mk_range_out _ _ _ _ (by omega)]
      rw [coeff_of_lt_valuation f n (by omega), mul_zero]

end PSeries

/-- Modelled from the spec: the external "tensor/direct sum" combinator on
Gram matrices (block-diagonal direct sum). -/
def gramDirectSum (A B : List (List ℤ)) : List (List ℤ) :=
  A.map (fun row => row ++ List.replicate B.length 0)
    ++ B.map (fun row => List.replicate A.length 0 ++ row)

/-- Modelled from the spec: the external base class `WeilRepModularForm`:
a weight, a Gram matrix and a Fourier expansion, the latter an ordered list
of (exponent offset, power series) components.  The offset-vector labels of
the sage triples carry no data used by `mock.py` and are identified with the
component's position. -/
structure WeilRepModularForm where
  weight : ℚ
  gram : List (List ℤ)
  fe : List (ℚ × PSeries)
deriving DecidableEq, Repr

namespace WeilRepModularForm

/-- Sage falsiness of a base form: every component series is zero. -/
def isZero (b : WeilRepModularForm) : Bool := b.fe.all (fun c => c.2.isZero)

/-- Offset structure of a form's expansion (one offset per component). -/
def shape (b : WeilRepModularForm) : List ℚ := b.fe.map Prod.fst

/-- Modelled from the spec: the zero form produced by the external factory
`w.zero(weight, precision)`.  It is represented with an empty component list
and acts as the identity of the modelled addition; the precision argument is
not tracked by the exact series model. -/
def zero (k : ℚ) (S : List (List ℤ)) (_p : ℤ) : WeilRepModularForm := ⟨k, S, []⟩

/-- Modelled from the spec: sage `precision()` of a base form (smallest
component precision; `0` for a form without components). -/
def precision (b : WeilRepModularForm) : ℤ :=
  (b.fe.map (fun c => c.2.prec)).foldr min 0

/-- Modelled from the spec: termwise addition of base forms (componentwise
on the series; a factory zero form acts as the identity). -/
def add (x y : WeilRepModularForm) : WeilRepModularForm :=
  if x.fe.isEmpty then y
  else if y.fe.isEmpty then x
  else ⟨x.weight, x.gram, List.zipWith (fun a b => (a.1, a.2.add b.2)) x.fe y.fe⟩

/-- Modelled from the spec: negation of a base form. -/
def neg (x : WeilRepModularForm) : WeilRepModularForm :=
  ⟨x.weight, x.gram, x.fe.map (fun c => (c.1, c.2.neg))⟩

/-- Modelled from the spec: termwise subtraction of base forms. -/
def sub (x y : WeilRepModularForm) : WeilRepModularForm :=
  if y.fe.isEmpty then x
  else if x.fe.isEmpty then ⟨y.weight, y.gram, y.fe.map (fun c => (c.1, c.2.neg))⟩
  else ⟨x.weight, x.gram, List.zipWith (fun a b => (a.1, a.2.sub b.2)) x.fe y.fe⟩

/-- Modelled from the spec: scalar multiplication of a base form. -/
def smul (c : ℚ) (x : WeilRepModularForm) : WeilRepModularForm :=
  ⟨x.weight, x.gram, x.fe.map (fun p => (p.1, PSeries.smul c p.2))⟩

/-- Modelled from the spec: division of a base form by a scalar. -/
def divc (x : WeilRepModularForm) (c : ℚ) : WeilRepModularForm :=
  ⟨x.weight, x.gram, x.fe.map (fun p => (p.1, p.2.divc c))⟩

/-- Modelled from the spec: the external tensor product of two base forms:
weights add, Gram matrices combine by direct sum, and the components are all
pairwise products with added offsets (first factor major). -/
def mul (x y : WeilRepModularForm) : WeilRepModularForm :=
  ⟨x.weight + y.weight, gramDirectSum x.gram y.gram,
    x.fe.flatMap (fun a => y.fe.map (fun b => (a.1 + b.1, a.2.mul b.2)))⟩

theorem isZero_eq_false_iff (x : WeilRepModularForm) :
    x.isZero = false ↔ ∃ c ∈ x.fe, c.2.isZero = false := by
  unfold isZero
  rw [← Bool.not_eq_true, List.all_eq_true]
  push_neg
  constructor
  · rintro ⟨c, hc, hz⟩
    exact ⟨c, hc, by simpa using hz⟩
  · rintro ⟨c, hc, hz⟩
    exact ⟨c, hc, by simp [hz]⟩

theorem isZero_mul_form (x y : WeilRepModularForm)
    (hx : x.isZero = false) (hy : y.isZero = false) :
    (x.mul y).isZero = false := by
  rw [isZero_eq_false_iff] at hx hy ⊢
  obtain ⟨a, ha, hza⟩ := hx
  obtain ⟨b, hb, hzb⟩ := hy
  refine ⟨(a.1 + b.1, a.2.mul b.2), ?_, PSeries.isZero_mul _ _ hza hzb⟩
  unfold mul
  dsimp only
  rw [List.mem_flatMap]
  exact ⟨a, ha, List.mem_map.mpr ⟨b, hb, rfl⟩⟩

theorem isZero_smul_of_ne_form (c : ℚ) (x : WeilRepModularForm) (hc : c ≠ 0) :
    (smul c x).isZero = x.isZero := by
  unfold smul isZero
  dsimp only
  rw [List.all_map]
  congr 1
  funext p
  exact PSeries.isZero_smul_of_ne c p.2 hc

theorem isZero_smul_zero_form (x : WeilRepModularForm) :
    (smul 0 x).isZero = true := by
  unfold smul isZero
  dsimp only
  rw [List.all_map, List.all_eq_true]
  intro p _
  exact PSeries.isZero_smul_zero p.2

end WeilRepModularForm

/-- Default base form used for out-of-range list accesses. -/
def WeilRepModularForm.dflt : WeilRepModularForm := ⟨0, [], []⟩

/-- Class for quasimodular forms (`WeilRepQuasiModularForm`): weight, Gram
matrix and the term list `f_r, ..., f_1, f_0` of the Taylor expansion in
`(4 pi y)^(-1)`, highest degree first.  Instances built by `init` always
have a nonempty term list; an instance of depth 0 is the plain base form
given by its single stored term. -/
structure WeilRepQuasiModularForm where
  weight : ℚ
  gram : List (List ℤ)
  terms : List WeilRepModularForm
deriving DecidableEq, Repr

namespace WeilRepQuasiModularForm

/-- The constructor `WeilRepQuasiModularForm(k, S, terms)` (mock.py lines
47-59): scan for the first truthy term at index `j`; if `j < len(terms)-1`
store `terms[j:]` (depth `len(terms)-1-j`), else the instance degrades to
the plain base form with weight `k`, Gram matrix `S` and the Fourier
expansion of `terms[-1]`. -/
def init (k : ℚ) (S : List (List ℤ)) (terms : List WeilRepModularForm) :
    WeilRepQuasiModularForm :=
  let j := terms.findIdx (fun x => !x.isZero)
  if j + 1 < terms.length then ⟨k, S, terms.drop j⟩
  else ⟨k, S, [⟨k, S, (terms.getLastD WeilRepModularForm.dflt).fe⟩]⟩

/-- `depth()` (mock.py lines 161-168): number of stored terms minus one
(0 for a degraded plain form). -/
def depth (f : WeilRepQuasiModularForm) : ℕ := f.terms.length - 1

/-- Modelled from the spec: sage falsiness (`not other`) of a quasimodular
form: the form is the zero form, i.e. every term is zero. -/
def isFalsy (f : WeilRepQuasiModularForm) : Bool :=
  f.terms.all (fun t => t.isZero)

/-- Modelled from the spec: sage `precision()` of the form, i.e. of its
underlying base expansion `f_0` (the last stored term). -/
def precision (f : WeilRepQuasiModularForm) : ℤ :=
  (f.terms.getLastD WeilRepModularForm.dflt).precision

/-- `__add__` (mock.py lines 61-83): falsy operands return `self` at once;
then incompatible Gram matrices and incompatible weights are rejected; the
term lists are aligned at the low-degree end and added termwise, and the
result is rebuilt through the constructor. -/
def add (self other : WeilRepQuasiModularForm) :
    Except String WeilRepQuasiModularForm :=
  if other.isFalsy then .ok self
  else if self.gram ≠ other.gram then .error "Incompatible Gram matrices"
  else if self.weight ≠ other.weight then .error "Incompatible weights"
  else
    let d1 := self.depth
    let d2 := other.depth
    let t1 := self.terms
    let t2 := other.terms
    let X :=
      if d1 ≤ d2 then
        t2.take (d2 - d1) ++ (List.range (d1 + 1)).map
          (fun i => (t1.getD i WeilRepModularForm.dflt).add
            (t2.getD (i + (d2 - d1)) WeilRepModularForm.dflt))
      else
        t1.take (d1 - d2) ++ (List.range (d2 + 1)).map
          (fun i => (t1.getD (i + (d1 - d2)) WeilRepModularForm.dflt).add
            (t2.getD i WeilRepModularForm.dflt))
    .ok (init self.weight self.gram X)

/-- `__sub__` (mock.py lines 87-109): same checks and alignment as
`__add__`, with the leading excess terms of a deeper second operand
negated. -/
def sub (self other : WeilRepQuasiModularForm) :
    Except String WeilRepQuasiModularForm :=
  if other.isFalsy then .ok self
  else if self.gram ≠ other.gram then .error "Incompatible Gram matrices"
  else if self.weight ≠ other.weight then .error "Incompatible weights"
  else
    let d1 := self.depth
    let d2 := other.depth
    let t1 := self.terms
    let t2 := other.terms
    let X :=
      if d1 ≤ d2 then
        (t2.take (d2 - d1)).map WeilRepModularForm.neg
          ++ (List.range (d1 + 1)).map
            (fun i => (t1.getD i WeilRepModularForm.dflt).sub
              (t2.getD (i + (d2 - d1)) WeilRepModularForm.dflt))
      else
        t1.take (d1 - d2) ++ (List.range (d2 + 1)).map
          (fun i => (t1.getD (i + (d1 - d2)) WeilRepModularForm.dflt).sub
            (t2.getD i WeilRepModularForm.dflt))
    .ok (init self.weight self.gram X)

/-- `__neg__` (mock.py lines 111-115). -/
def neg (f : WeilRepQuasiModularForm) : WeilRepQuasiModularForm :=
  init f.weight f.gram (f.terms.map WeilRepModularForm.neg)

/-- The scalar branch of `__mul__` (mock.py lines 121-122): `other in QQ`. -/
def smul (c : ℚ) (f : WeilRepQuasiModularForm) : WeilRepQuasiModularForm :=
  init f.weight f.gram (f.terms.map (WeilRepModularForm.smul c))

/-- The tensor branch of `__mul__` (mock.py lines 123-138): weights add,
weilreps (Gram matrices) combine by direct sum, `rs+1` zero accumulators of
weights `2*i + (k - 2*rs)` at precision `p` are allocated, and every product
`t1[i]*t2[j]` is accumulated onto entry `i+j`. -/
def mul (self other : WeilRepQuasiModularForm) : WeilRepQuasiModularForm :=
  let k := self.weight + other.weight
  let w := gramDirectSum self.gram other.gram
  let t1 := self.terms
  let t2 := other.terms
  let r := self.depth
  let s := other.depth
  let rs := r + s
  let j : ℚ := k - rs - rs
  let p := self.precision
  let X0 := (List.range (rs + 1)).map
    (fun (i : ℕ) => WeilRepModularForm.zero ((i : ℚ) + (i : ℚ) + j) w p)
  let X := (List.range (r + 1)).foldl (fun Y i =>
      (List.range (s + 1)).foldl (fun Z jj =>
        Z.set (i + jj) ((Z.getD (i + jj) WeilRepModularForm.dflt).add
          ((t1.getD i WeilRepModularForm.dflt).mul
            (t2.getD jj WeilRepModularForm.dflt)))) Y) X0
  init k w X

/-- `__div__` (mock.py lines 142-148): divide every term by the scalar. -/
def div (f : WeilRepQuasiModularForm) (c : ℚ) : WeilRepQuasiModularForm :=
  init f.weight f.gram (f.terms.map (fun x => x.divc c))

/-- `__pow__` (mock.py lines 150-159): `N == 1` returns self, `N > 1`
splits into `floor(N/2)` and the remainder and multiplies the recursive
halves, anything else raises `Invalid exponent`. -/
def pow (f : WeilRepQuasiModularForm) (N : ℤ) :
    Except String WeilRepQuasiModularForm :=
  if N = 1 then .ok f
  else if 1 < N then
    (pow f (N / 2)).bind fun x =>
      (pow f (N - N / 2)).map fun y => x.mul y
  else .error "Invalid exponent"
termination_by N.toNat
decreasing_by
  · omega
  · omega

end WeilRepQuasiModularForm

namespace WeilRepQuasiModularForm

/-- The local function `d(X)` inside `derivative` (mock.py lines 245-248):
apply the offset derivative `a` to every component of the Fourier expansion
and raise the weight by two, keeping the ambient Gram matrix `S`. -/
def dOp (S : List (List ℤ)) (x : WeilRepModularForm) : WeilRepModularForm :=
  ⟨x.weight + 2, S, x.fe.map (fun c => (c.1, PSeries.seriesD c.1 c.2))⟩

/-- The term list built by `derivative` (mock.py line 251):
`[(r-k)*t[0]] + [(r-k-j)*t[j] + d(t[j-1]) for j in range(1, r+1)] + [d(t[-1])]`. -/
def derivTerms (f : WeilRepQuasiModularForm) : List WeilRepModularForm :=
  let t := f.terms
  let r := f.depth
  let k := f.weight
  WeilRepModularForm.smul ((r : ℚ) - k) (t.getD 0 WeilRepModularForm.dflt)
    :: ((List.range r).map (fun (j0 : ℕ) =>
        (WeilRepModularForm.smul ((r : ℚ) - k - ((j0 : ℚ) + 1))
            (t.getD (j0 + 1) WeilRepModularForm.dflt)).add
          (dOp f.gram (t.getD j0 WeilRepModularForm.dflt)))
      ++ [dOp f.gram (t.getLastD WeilRepModularForm.dflt)])

/-- `derivative` (mock.py lines 224-252). -/
def derivative (f : WeilRepQuasiModularForm) : WeilRepQuasiModularForm :=
  init (f.weight + 2) f.gram (derivTerms f)

/-- The coefficient/loop-variable state of `shift` (mock.py lines 265-270):
starting from `f = [1]*(r+1)` and `k = r-1`, each iteration `j = 1..r` sets
`f[k] = j*f[k+1]` and decrements `k`. -/
def shiftLoop (r : ℕ) : List ℕ × ℤ :=
  (List.range r).foldl
    (fun (acc : List ℕ × ℤ) j0 =>
      (acc.1.set acc.2.toNat ((j0 + 1) * acc.1.getD (acc.2 + 1).toNat 1),
        acc.2 - 1))
    (List.replicate (r + 1) 1, (r : ℤ) - 1)

/-- `shift` (mock.py lines 254-272): drop the last term, scale term `i` by
the loop coefficient `f[i]`, and construct with weight `k - 2` where `k` is
the final value of the loop variable. -/
def shift (q : WeilRepQuasiModularForm) : WeilRepQuasiModularForm :=
  let r := q.depth
  let fl := (shiftLoop r).1
  let k := (shiftLoop r).2
  let X := q.terms
  init ((k - 2 : ℤ) : ℚ) q.gram
    (X.dropLast.enum.map (fun p => WeilRepModularForm.smul (fl.getD p.1 1 : ℚ) p.2))

end WeilRepQuasiModularForm

/-- `WeilRepAlmostHolomorphicModularForm` (mock.py lines 274-286): weight,
Gram matrix, the list `[f_0, f_1, ...]` of quasimodular forms
(degree-ascending) and the depth of the leading entry. -/
structure WeilRepAlmostHolomorphicModularForm where
  weight : ℚ
  gram : List (List ℤ)
  list : List WeilRepQuasiModularForm
  depth : ℕ
deriving DecidableEq, Repr

/-- Default quasimodular form used for out-of-range list accesses. -/
def WeilRepQuasiModularForm.dfltQ : WeilRepQuasiModularForm := ⟨0, [], []⟩

/-- `completion` (mock.py lines 182-222): start from `X = [self]` and for
`i in range(r)` append `X[-1].shift() / j` where `j` accumulates the
product `1 * ... * (i+1)`; wrap in a `WeilRepAlmostHolomorphicModularForm`
whose stored depth is `X[0].depth()`. -/
def WeilRepQuasiModularForm.completion (q : WeilRepQuasiModularForm) :
    WeilRepAlmostHolomorphicModularForm :=
  let P := (List.range q.depth).foldl
    (fun (acc : List WeilRepQuasiModularForm × ℕ) i =>
      let j := acc.2 * (i + 1)
      (acc.1 ++ [(acc.1.getLastD WeilRepQuasiModularForm.dfltQ).shift.div (j : ℚ)], j))
    ([q], 1)
  ⟨q.weight, q.gram, P.1, (P.1.headD WeilRepQuasiModularForm.dfltQ).depth⟩

/-- Operand of the lazy arithmetic of an almost-holomorphic form: either
another completion or a bare (quasi)modular form. -/
inductive AHOperand where
  | ah (x : WeilRepAlmostHolomorphicModularForm)
  | qm (x : WeilRepQuasiModularForm)
deriving DecidableEq

namespace WeilRepAlmostHolomorphicModularForm

/-- `__add__` (mock.py lines 313-319): a falsy operand returns `self`
unchanged (a completion object itself is never falsy); otherwise add to
`self[0]` (the leading quasimodular form) and re-complete. -/
def add (A : WeilRepAlmostHolomorphicModularForm) (other : AHOperand) :
    Except String WeilRepAlmostHolomorphicModularForm :=
  match other with
  | .qm x =>
      if x.isFalsy then .ok A
      else ((A.list.headD WeilRepQuasiModularForm.dfltQ).add x).map
        WeilRepQuasiModularForm.completion
  | .ah B =>
      ((A.list.headD WeilRepQuasiModularForm.dfltQ).add
          (B.list.headD WeilRepQuasiModularForm.dfltQ)).map
        WeilRepQuasiModularForm.completion

/-- `__sub__` (mock.py lines 323-329). -/
def sub (A : WeilRepAlmostHolomorphicModularForm) (other : AHOperand) :
    Except String WeilRepAlmostHolomorphicModularForm :=
  match other with
  | .qm x =>
      if x.isFalsy then .ok A
      else ((A.list.headD WeilRepQuasiModularForm.dfltQ).sub x).map
        WeilRepQuasiModularForm.completion
  | .ah B =>
      ((A.list.headD WeilRepQuasiModularForm.dfltQ).sub
          (B.list.headD WeilRepQuasiModularForm.dfltQ)).map
        WeilRepQuasiModularForm.completion

end WeilRepAlmostHolomorphicModularForm

/-- `WeilRepMockModularForm` (mock.py lines 360-402): a base form together
with its shadow. -/
structure WeilRepMockModularForm where
  weight : ℚ
  gram : List (List ℤ)
  fe : List (ℚ × PSeries)
  shadow : WeilRepModularForm
deriving DecidableEq, Repr

namespace WeilRepMockModularForm

/-- The underlying base form of a mock modular form. -/
def toForm (m : WeilRepMockModularForm) : WeilRepModularForm :=
  ⟨m.weight, m.gram, m.fe⟩

/-- Operand of the additive mock-form arithmetic: another mock form or a
plain base form. -/
inductive Operand where
  | mock (x : WeilRepMockModularForm)
  | form (b : WeilRepModularForm)
deriving DecidableEq

/-- Base form underlying an additive operand. -/
def Operand.toForm : Operand → WeilRepModularForm
  | .mock x => x.toForm
  | .form b => b

/-- `__add__` (mock.py lines 374-379): add the base expansions; the shadow
of the other operand is added exactly when it is a mock form. -/
def add (m : WeilRepMockModularForm) (other : Operand) : WeilRepMockModularForm :=
  let f := m.toForm.add other.toForm
  let s := match other with
    | .mock x => m.shadow.add x.shadow
    | .form _ => m.shadow
  ⟨m.weight, m.gram, f.fe, s⟩

/-- `__sub__` (mock.py lines 381-386). -/
def sub (m : WeilRepMockModularForm) (other : Operand) : WeilRepMockModularForm :=
  let f := m.toForm.sub other.toForm
  let s := match other with
    | .mock x => m.shadow.sub x.shadow
    | .form _ => m.shadow
  ⟨m.weight, m.gram, f.fe, s⟩

/-- `__neg__` (mock.py lines 388-389). -/
def neg (m : WeilRepMockModularForm) : WeilRepMockModularForm :=
  ⟨m.weight, m.gram, m.toForm.neg.fe, m.shadow.neg⟩

/-- `__mul__` (mock.py lines 391-395): rational scalars scale both the
expansion and the shadow; any non-scalar operand is `NotImplemented`. -/
def mul (m : WeilRepMockModularForm) (other : ℚ ⊕ WeilRepModularForm) :
    Option WeilRepMockModularForm :=
  match other with
  | .inl c => some ⟨m.weight, m.gram, (WeilRepModularForm.smul c m.toForm).fe,
      WeilRepModularForm.smul c m.shadow⟩
  | .inr _ => none

/-- `__truediv__` (mock.py lines 397-399): multiply by the reciprocal. -/
def div (m : WeilRepMockModularForm) (c : ℚ) : Option WeilRepMockModularForm :=
  m.mul (.inl c⁻¹)

/-- `derivative` (mock.py lines 401-402): `NotImplemented`. -/
def derivative (_ : WeilRepMockModularForm) : Option WeilRepMockModularForm :=
  none

end WeilRepMockModularForm

theorem getD_set_same {α : Type} (l : List α) (i : ℕ) (v d : α) (h : i < l.length) :
    (l.set i v).getD i d = v := by
  rw [List.getD_eq_getElem?_getD, List.getElem?_set_self (by omega), Option.getD_some]

theorem getD_set_other {α : Type} (l : List α) (i j : ℕ) (v d : α) (h : i ≠ j) :
    (l.set i v).getD j d = l.getD j d := by
  rw [List.getD_eq_getElem?_getD, List.getElem?_set_ne h, ← List.getD_eq_getElem?_getD]

theorem getLastD_eq_getD {α : Type} (l : List α) (d : α) :
    l.getLastD d = l.getD (l.length - 1) d := by
  rw [List.getLastD_eq_getLast?, List.getLast?_eq_getElem?, List.getD_eq_getElem?_getD]

theorem headD_eq_getD {α : Type} (l : List α) (d : α) : l.headD d = l.getD 0 d := by
  cases l <;> rfl

theorem getD_map_range {α : Type} (g : ℕ → α) (L : ℕ) (i : ℕ) (d : α) (h : i < L) :
    ((List.range L).map g).getD i d = g i := by
  rw [List.getD_eq_getElem _ _ (by simpa using h)]
  simp

theorem foldl_flatMap {α β γ : Type} (l : List α) (g : α → List β)
    (step : γ → β → γ) (x : γ) :
    (l.flatMap g).foldl step x = l.foldl (fun y a => (g a).foldl step y) x := by
  induction l generalizing x with
  | nil => rfl
  | cons a t ih => simp [List.flatMap_cons, List.foldl_append, ih]

namespace WeilRepQuasiModularForm

/-- Well-formed instance: the term list is nonempty, and an expanded
(depth at least 1) instance has a truthy leading term — exactly the
invariant established by the constructor's trimming. -/
def WF (q : WeilRepQuasiModularForm) : Prop :=
  q.terms ≠ [] ∧
    (2 ≤ q.terms.length → (q.terms.headD WeilRepModularForm.dflt).isZero = false)

instance (q : WeilRepQuasiModularForm) : Decidable q.WF := by
  unfold WF
  infer_instance

theorem init_eq_of_head (k : ℚ) (S : List (List ℤ)) (l : List WeilRepModularForm)
    (h2 : 2 ≤ l.length) (hh : (l.headD WeilRepModularForm.dflt).isZero = false) :
    init k S l = ⟨k, S, l⟩ := by
  cases l with
  | nil => simp at h2
  | cons a t =>
    have ha : a.isZero = false := hh
    unfold init
    have hfind : (a :: t).findIdx (fun x => !x.isZero) = 0 := by
      rw [List.findIdx_cons, ha]
      rfl
    rw [hfind, if_pos (by simpa using h2)]
    rfl

theorem init_singleton (k : ℚ) (S : List (List ℤ)) (b : WeilRepModularForm) :
    init k S [b] = ⟨k, S, [⟨k, S, b.fe⟩]⟩ := by
  unfold init
  rw [if_neg (by simp)]
  rfl

theorem weight_init (k : ℚ) (S : List (List ℤ)) (l : List WeilRepModularForm) :
    (init k S l).weight = k := by
  simp only [init]
  split <;> rfl

theorem gram_init (k : ℚ) (S : List (List ℤ)) (l : List WeilRepModularForm) :
    (init k S l).gram = S := by
  simp only [init]
  split <;> rfl

theorem depth_init_cons_headZero (k : ℚ) (S : List (List ℤ))
    (a : WeilRepModularForm) (t : List WeilRepModularForm)
    (hz : a.isZero = true) :
    (init k S (a :: t)).depth ≤ t.length - 1 := by
  simp only [init, depth]
  have hfind : (a :: t).findIdx (fun x => !x.isZero)
      = t.findIdx (fun x => !x.isZero) + 1 := by
    rw [List.findIdx_cons, hz]
    rfl
  rw [hfind]
  split
  · simp only [List.length_drop, List.length_cons]
    omega
  · simp

theorem depth_init_cons_head (k : ℚ) (S : List (List ℤ))
    (a : WeilRepModularForm) (t : List WeilRepModularForm)
    (h1 : 1 ≤ t.length) (hh : a.isZero = false) :
    (init k S (a :: t)).depth = t.length := by
  rw [init_eq_of_head k S (a :: t) (by simp; omega) hh]
  unfold depth
  simp

end WeilRepQuasiModularForm

namespace WeilRepQuasiModularForm

/-- C1: the term list of `derivative` realises the raising-operator
recurrence: the result has weight `k + 2` and is built from the untrimmed
list whose entry `0` is `(r-k)*t[0]`, whose entry `j` for `1 ≤ j ≤ r` is
`(r-k-j)*t[j] + D(t[j-1])`, and whose entry `r+1` is `D(t[r])`, where `D`
is the formal q-series derivative `dOp`. -/
theorem derivative_term_recurrence (f : WeilRepQuasiModularForm)
    (h : f.terms ≠ []) :
    f.derivative = init (f.weight + 2) f.gram (derivTerms f) ∧
    f.derivative.weight = f.weight + 2 ∧
    (derivTerms f).length = f.depth + 2 ∧
    (derivTerms f).getD 0 WeilRepModularForm.dflt
      = WeilRepModularForm.smul ((f.depth : ℚ) - f.weight)
          (f.terms.getD 0 WeilRepModularForm.dflt) ∧
    (∀ j : ℕ, 1 ≤ j → j ≤ f.depth →
      (derivTerms f).getD j WeilRepModularForm.dflt
        = (WeilRepModularForm.smul ((f.depth : ℚ) - f.weight - (j : ℚ))
            (f.terms.getD j WeilRepModularForm.dflt)).add
            (dOp f.gram (f.terms.getD (j - 1) WeilRepModularForm.dflt))) ∧
    (derivTerms f).getD (f.depth + 1) WeilRepModularForm.dflt
      = dOp f.gram (f.terms.getD f.depth WeilRepModularForm.dflt) := by
  refine ⟨rfl, weight_init _ _ _, ?_, rfl, ?_, ?_⟩
  · unfold derivTerms
    simp
  · intro j hj1 hjr
    obtain ⟨j', rfl⟩ : ∃ j', j = j' + 1 := ⟨j - 1, by omega⟩
    unfold derivTerms
    rw [List.getD_cons_succ]
    rw [List.getD_append _ _ _ _ (by simpa using by omega : j' < ((List.range f.depth).map _).length)]
    rw [getD_map_range _ _ _ _ (by omega)]
    have hc : ((j' : ℚ) + 1) = ((j' + 1 : ℕ) : ℚ) := by push_cast; ring
    rw [hc]
    simp
  · unfold derivTerms
    rw [List.getD_cons_succ]
    rw [List.getD_append_right _ _ _ _ (by simp : ((List.range f.depth).map _).length ≤ f.depth)]
    simp only [List.length_map, List.length_range, Nat.sub_self]
    have hlast : f.terms.getLastD WeilRepModularForm.dflt
        = f.terms.getD f.depth WeilRepModularForm.dflt := by
      rw [getLastD_eq_getD]
      rfl
    rw [← hlast]
    rfl

end WeilRepQuasiModularForm

/-- Concrete single-component base form used by witnesses. -/
def wBase : WeilRepModularForm := ⟨0, [[2]], [(0, ⟨0, [1]⟩)]⟩

/-- Concrete depth-1 quasimodular form of weight 1 used by witnesses. -/
def wQ1 : WeilRepQuasiModularForm := ⟨1, [[2]], [wBase, wBase]⟩

/-- Witness for C1: the recurrence theorem applies to a concrete depth-1
form. -/
theorem derivative_term_recurrence_witness :
    wQ1.terms ≠ [] ∧
    (wQ1.derivative = WeilRepQuasiModularForm.init (wQ1.weight + 2) wQ1.gram
        (WeilRepQuasiModularForm.derivTerms wQ1) ∧
      wQ1.derivative.weight = wQ1.weight + 2 ∧
      (WeilRepQuasiModularForm.derivTerms wQ1).length = wQ1.depth + 2 ∧
      (WeilRepQuasiModularForm.derivTerms wQ1).getD 0 WeilRepModularForm.dflt
        = WeilRepModularForm.smul ((wQ1.depth : ℚ) - wQ1.weight)
            (wQ1.terms.getD 0 WeilRepModularForm.dflt) ∧
      (∀ j : ℕ, 1 ≤ j → j ≤ wQ1.depth →
        (WeilRepQuasiModularForm.derivTerms wQ1).getD j WeilRepModularForm.dflt
          = (WeilRepModularForm.smul ((wQ1.depth : ℚ) - wQ1.weight - (j : ℚ))
              (wQ1.terms.getD j WeilRepModularForm.dflt)).add
              (WeilRepQuasiModularForm.dOp wQ1.gram
                (wQ1.terms.getD (j - 1) WeilRepModularForm.dflt))) ∧
      (WeilRepQuasiModularForm.derivTerms wQ1).getD (wQ1.depth + 1)
          WeilRepModularForm.dflt
        = WeilRepQuasiModularForm.dOp wQ1.gram
            (wQ1.terms.getD wQ1.depth WeilRepModularForm.dflt)) :=
  ⟨by decide, WeilRepQuasiModularForm.derivative_term_recurrence wQ1 (by decide)⟩

/-- C10: when the depth equals the weight, the leading derivative term
`(r-k)*t[0]` is the zero form, so the constructor trims it and the
derivative's depth stays at most `r`. -/
theorem derivative_depth_no_gain (f : WeilRepQuasiModularForm)
    (h : f.terms ≠ []) (hw : f.weight = (f.depth : ℚ)) :
    (WeilRepModularForm.smul ((f.depth : ℚ) - f.weight)
        (f.terms.getD 0 WeilRepModularForm.dflt)).isZero = true ∧
    f.derivative.depth ≤ f.depth := by
  have hz : (WeilRepModularForm.smul ((f.depth : ℚ) - f.weight)
      (f.terms.getD 0 WeilRepModularForm.dflt)).isZero = true := by
    rw [hw, sub_self]
    exact WeilRepModularForm.isZero_smul_zero_form _
  refine ⟨hz, ?_⟩
  show (WeilRepQuasiModularForm.init (f.weight + 2) f.gram
      (WeilRepQuasiModularForm.derivTerms f)).depth ≤ f.depth
  have hle : (WeilRepQuasiModularForm.init (f.weight + 2) f.gram
      (WeilRepQuasiModularForm.derivTerms f)).depth
      ≤ ((List.range f.depth).map (fun (j0 : ℕ) =>
          (WeilRepModularForm.smul ((f.depth : ℚ) - f.weight - ((j0 : ℚ) + 1))
            (f.terms.getD (j0 + 1) WeilRepModularForm.dflt)).add
          (WeilRepQuasiModularForm.dOp f.gram
            (f.terms.getD j0 WeilRepModularForm.dflt)))
        ++ [WeilRepQuasiModularForm.dOp f.gram
            (f.terms.getLastD WeilRepModularForm.dflt)]).length - 1 :=
    WeilRepQuasiModularForm.depth_init_cons_headZero _ _ _ _ hz
  refine le_trans hle ?_
  simp

/-- Witness for C10: a concrete depth-1, weight-1 form does not gain
depth under `derivative`. -/
theorem derivative_depth_no_gain_witness :
    wQ1.terms ≠ [] ∧ wQ1.weight = (wQ1.depth : ℚ) ∧
    ((WeilRepModularForm.smul ((wQ1.depth : ℚ) - wQ1.weight)
        (wQ1.terms.getD 0 WeilRepModularForm.dflt)).isZero = true ∧
      wQ1.derivative.depth ≤ wQ1.depth) :=
  ⟨by decide, by decide, derivative_depth_no_gain wQ1 (by decide) (by decide)⟩

namespace WeilRepQuasiModularForm

/-- State of the `shift` coefficient loop after `m` of its `r` iterations:
positions `r-m, ..., r` hold falling factorials and the loop index has been
decremented `m` times. -/
theorem shiftLoop_aux (r m : ℕ) (hm : m ≤ r) :
    (List.range m).foldl
      (fun (acc : List ℕ × ℤ) j0 =>
        (acc.1.set acc.2.toNat ((j0 + 1) * acc.1.getD (acc.2 + 1).toNat 1),
          acc.2 - 1))
      (List.replicate (r + 1) 1, (r : ℤ) - 1)
    = ((List.range (r + 1)).map (fun i => if r - m ≤ i then (r - i).factorial else 1),
        (r : ℤ) - 1 - m) := by
  induction m with
  | zero =>
    simp only [List.range_zero, List.foldl_nil, Nat.cast_zero, sub_zero]
    refine Prod.ext ?_ rfl
    dsimp only
    apply List.ext_getElem (by simp)
    intro i h1 h2
    simp only [List.getElem_replicate, List.getElem_map, List.getElem_range]
    simp only [List.length_replicate] at h1
    by_cases hir : r ≤ i
    · have : i = r := by omega
      subst this
      simp
    · rw [if_neg (by omega)]
  | succ m ih =>
    have hm' : m ≤ r := by omega
    rw [List.range_succ, List.foldl_append, ih hm', List.foldl_cons, List.foldl_nil]
    have hk : ((r : ℤ) - 1 - m).toNat = r - 1 - m := by omega
    have hk1 : ((r : ℤ) - 1 - m + 1).toNat = r - m := by omega
    refine Prod.ext ?_ (by dsimp only; push_cast; ring)
    dsimp only
    rw [hk, hk1]
    rw [getD_map_range _ _ _ _ (by omega)]
    rw [if_pos (by omega)]
    have hrr : r - (r - m) = m := by omega
    rw [hrr]
    apply List.ext_getElem (by simp)
    intro i h1 h2
    simp only [List.length_set, List.length_map, List.length_range] at h1
    by_cases hidx : i = r - 1 - m
    · subst hidx
      rw [List.getElem_set_self _]
      simp only [List.getElem_map, List.getElem_range]
      rw [if_pos (by omega)]
      have : r - (r - 1 - m) = m + 1 := by omega
      rw [this, Nat.factorial_succ]
    · rw [List.getElem_set_ne (fun hc => hidx hc.symm) _]
      simp only [List.getElem_map, List.getElem_range]
      by_cases hge : r - m ≤ i
      · rw [if_pos hge, if_pos (by omega)]
      · rw [if_neg hge, if_neg (by omega)]

/-- Final state of the `shift` coefficient loop: coefficient `i` is
`(r-i)!` and the loop variable `k` has reached `-1`. -/
theorem shiftLoop_eq (r : ℕ) :
    shiftLoop r = ((List.range (r + 1)).map (fun i => (r - i).factorial), -1) := by
  unfold shiftLoop
  rw [shiftLoop_aux r r le_rfl]
  refine Prod.ext ?_ (by dsimp only; ring)
  dsimp only
  apply List.map_congr_left
  intro i _
  rw [if_pos (by omega)]

theorem shiftLoop_getD (r i : ℕ) : (shiftLoop r).1.getD i 1 = (r - i).factorial := by
  rw [shiftLoop_eq]
  dsimp only
  by_cases h : i < r + 1
  · rw [getD_map_range _ _ _ _ h]
  · rw [List.getD_eq_default _ _ (by simpa using h)]
    have : r - i = 0 := by omega
    rw [this, Nat.factorial_zero]

/-- C2 (amended): `shift` drops the lowest term, multiplies term `i` by
`(r-i)!`, and constructs with weight `-3` (the loop variable `k` always
ends at `-1`, so the constructed weight `k - 2` is `-3` whatever the
depth); the result of an expanded well-formed form has depth `r - 1`. -/
theorem shift_spec (q : WeilRepQuasiModularForm) (hwf : q.WF) (hd : 1 ≤ q.depth) :
    q.shift = init (-3 : ℚ) q.gram
        ((q.terms.dropLast.enum).map (fun p =>
          WeilRepModularForm.smul (((q.depth - p.1).factorial : ℚ)) p.2)) ∧
    q.shift.weight = -3 ∧
    q.shift.depth = q.depth - 1 := by
  have hlen : 2 ≤ q.terms.length := by
    unfold depth at hd
    omega
  have hmain : q.shift = init (-3 : ℚ) q.gram
      ((q.terms.dropLast.enum).map (fun p =>
        WeilRepModularForm.smul (((q.depth - p.1).factorial : ℚ)) p.2)) := by
    simp only [shift]
    have hw : ((shiftLoop q.depth).2 - 2 : ℤ) = -3 := by
      rw [shiftLoop_eq]
      rfl
    rw [hw]
    have hc : (((-3 : ℤ) : ℚ)) = (-3 : ℚ) := by norm_num
    rw [hc]
    congr 1
    apply List.map_congr_left
    intro p _
    rw [shiftLoop_getD]
  refine ⟨hmain, ?_, ?_⟩
  · rw [hmain, weight_init]
  · rw [hmain]
    have hdl : q.terms.dropLast.length = q.depth := by
      unfold depth
      simp
    by_cases hr : 2 ≤ q.depth
    · have hlist : 2 ≤ ((q.terms.dropLast.enum).map (fun p =>
          WeilRepModularForm.smul (((q.depth - p.1).factorial : ℚ)) p.2)).length := by
        simp only [List.length_map, List.enum_length]
        omega
      have hhead : (((q.terms.dropLast.enum).map (fun p =>
          WeilRepModularForm.smul (((q.depth - p.1).factorial : ℚ)) p.2)).headD
            WeilRepModularForm.dflt).isZero = false := by
        have hb1 : 0 < q.terms.dropLast.enum.length := by
          simp
          omega
        have hb2 : 0 < q.terms.dropLast.length := by
          simp
          omega
        have hb3 : 0 < q.terms.length := by omega
        rw [headD_eq_getD, List.getD_eq_getElem _ _ (by simpa using by omega)]
        simp only [List.getElem_map]
        have he : q.terms.dropLast.enum[0]
            = (0, q.terms.dropLast[0]) := by
          simp
        rw [he]
        dsimp only
        rw [WeilRepModularForm.isZero_smul_of_ne_form _ _
          (by exact_mod_cast Nat.factorial_ne_zero _)]
        have hterm : q.terms.dropLast[0]
            = q.terms[0] := List.getElem_dropLast _ _ _
        rw [hterm]
        have := hwf.2 hlen
        rw [headD_eq_getD, List.getD_eq_getElem _ _ (by omega)] at this
        exact this
      rw [init_eq_of_head _ _ _ hlist hhead]
      unfold depth
      simp only [List.length_map, List.enum_length, List.length_dropLast]
    · have hr1 : q.depth = 1 := by omega
      have hone : ((q.terms.dropLast.enum).map (fun p =>
          WeilRepModularForm.smul (((q.depth - p.1).factorial : ℚ)) p.2)).length = 1 := by
        simp only [List.length_map, List.enum_length]
        omega
      obtain ⟨b, hb⟩ : ∃ b, ((q.terms.dropLast.enum).map (fun p =>
          WeilRepModularForm.smul (((q.depth - p.1).factorial : ℚ)) p.2)) = [b] :=
        List.length_eq_one.mp hone
      rw [hb, init_singleton]
      unfold depth at hr1 ⊢
      simp only [List.length_cons, List.length_nil]
      omega

end WeilRepQuasiModularForm

/-- Counterexample for C2 as stated: for the concrete depth-1 form `wQ1`,
`shift` constructs with weight `-3`, not `depth - 3 = -2`. -/
theorem shift_weight_claim_cex :
    wQ1.depth = 1 ∧ wQ1.shift.weight = -3 ∧
    wQ1.shift.weight ≠ (wQ1.depth : ℚ) - 3 := by
  have h3 : wQ1.shift.weight = -3 := by
    simp only [WeilRepQuasiModularForm.shift, WeilRepQuasiModularForm.shiftLoop_eq]
    rw [WeilRepQuasiModularForm.weight_init]
    norm_num
  refine ⟨rfl, h3, ?_⟩
  rw [h3]
  have hd1 : wQ1.depth = 1 := rfl
  rw [hd1]
  norm_num

/-- Witness for the amended C2 at the concrete depth-1 form `wQ1`. -/
theorem shift_spec_witness :
    wQ1.WF ∧ 1 ≤ wQ1.depth ∧
    (wQ1.shift = WeilRepQuasiModularForm.init (-3 : ℚ) wQ1.gram
        ((wQ1.terms.dropLast.enum).map (fun p =>
          WeilRepModularForm.smul (((wQ1.depth - p.1).factorial : ℚ)) p.2)) ∧
      wQ1.shift.weight = -3 ∧
      wQ1.shift.depth = wQ1.depth - 1) :=
  ⟨by decide, by decide, WeilRepQuasiModularForm.shift_spec wQ1 (by decide) (by decide)⟩

namespace WeilRepQuasiModularForm

/-- Reference sequence for the completion terms: term `0` is the form
itself and term `i+1` is `shift` of term `i` divided by `(i+1)!` (the
cumulative divisor `j` of the loop). -/
def completionTerm (q : WeilRepQuasiModularForm) : ℕ → WeilRepQuasiModularForm
  | 0 => q
  | i + 1 => ((completionTerm q i).shift).div (((i + 1).factorial : ℚ))

theorem completion_aux (q : WeilRepQuasiModularForm) (m : ℕ) :
    (List.range m).foldl
      (fun (acc : List WeilRepQuasiModularForm × ℕ) i =>
        let j := acc.2 * (i + 1)
        (acc.1 ++ [(acc.1.getLastD WeilRepQuasiModularForm.dfltQ).shift.div (j : ℚ)], j))
      ([q], 1)
    = ((List.range (m + 1)).map (completionTerm q), m.factorial) := by
  induction m with
  | zero =>
    refine Prod.ext ?_ rfl
    dsimp only
    rw [show (0 + 1) = 1 from rfl, List.range_succ, List.range_zero]
    rfl
  | succ m ih =>
    rw [List.range_succ, List.foldl_append, ih, List.foldl_cons, List.foldl_nil]
    refine Prod.ext ?_ ?_
    · dsimp only
      rw [List.range_succ (m + 1), List.map_append]
      congr 1
      have hlast : ((List.range (m + 1)).map (completionTerm q)).getLastD
          WeilRepQuasiModularForm.dfltQ = completionTerm q m := by
        rw [getLastD_eq_getD]
        simp only [List.length_map, List.length_range]
        have hidx : m + 1 - 1 = m := rfl
        rw [hidx, getD_map_range _ _ _ _ (by omega)]
      rw [hlast]
      have hfac : ((m.factorial * (m + 1) : ℕ) : ℚ) = (((m + 1).factorial : ℕ) : ℚ) := by
        rw [Nat.factorial_succ]
        push_cast
        ring
      rw [hfac]
      rfl
    · dsimp only
      rw [Nat.factorial_succ]
      ring

/-- C3 (amended): `completion` wraps `depth + 1` terms; term 0 is the form
itself and term `i+1` is `shift` of term `i` divided by `(i+1)!` (the
divisor is the cumulatively multiplied `j`, i.e. a factorial, not `i+1`),
so term `i` is `shift^i(f)` divided by the superfactorial
`1! * 2! * ... * i!`. -/
theorem completion_superfactorial_recurrence (q : WeilRepQuasiModularForm) :
    q.completion.weight = q.weight ∧ q.completion.gram = q.gram ∧
    q.completion.list = (List.range (q.depth + 1)).map (completionTerm q) ∧
    q.completion.list.length = q.depth + 1 ∧
    q.completion.list.getD 0 WeilRepQuasiModularForm.dfltQ = q ∧
    (∀ i, i < q.depth →
      q.completion.list.getD (i + 1) WeilRepQuasiModularForm.dfltQ
        = ((q.completion.list.getD i WeilRepQuasiModularForm.dfltQ).shift).div
            (((i + 1).factorial : ℚ))) := by
  have hlist : q.completion.list = (List.range (q.depth + 1)).map (completionTerm q) := by
    show ((List.range q.depth).foldl _ ([q], 1)).1
      = (List.range (q.depth + 1)).map (completionTerm q)
    rw [completion_aux]
  refine ⟨rfl, rfl, hlist, ?_, ?_, ?_⟩
  · rw [hlist]
    simp
  · rw [hlist, getD_map_range _ _ _ _ (by omega)]
    rfl
  · intro i hi
    rw [hlist, getD_map_range _ _ _ _ (by omega), getD_map_range _ _ _ _ (by omega)]
    rfl

end WeilRepQuasiModularForm

/-- Concrete depth-3 quasimodular form exposing the superfactorial
divisor. -/
def wQ3 : WeilRepQuasiModularForm := ⟨2, [[2]], [wBase, wBase, wBase, wBase]⟩

/-- Counterexample for C3 as stated: for the concrete depth-3 form `wQ3`,
term 3 of the completion is neither `shift` of term 2 divided by 3 nor
`shift^3` divided by `3! = 6`. -/
theorem completion_claim_cex :
    wQ3.depth = 3 ∧
    wQ3.completion.list.getD 3 WeilRepQuasiModularForm.dfltQ
      ≠ ((wQ3.completion.list.getD 2 WeilRepQuasiModularForm.dfltQ).shift).div (3 : ℚ) ∧
    wQ3.completion.list.getD 3 WeilRepQuasiModularForm.dfltQ
      ≠ (wQ3.shift.shift.shift).div (6 : ℚ) := by
  refine ⟨by decide, ?_, ?_⟩
  · have h : decide (wQ3.completion.list.getD 3 WeilRepQuasiModularForm.dfltQ
        ≠ ((wQ3.completion.list.getD 2 WeilRepQuasiModularForm.dfltQ).shift).div (3 : ℚ))
        = true := by with_unfolding_all rfl
    exact of_decide_eq_true h
  · have h : decide (wQ3.completion.list.getD 3 WeilRepQuasiModularForm.dfltQ
        ≠ (wQ3.shift.shift.shift).div (6 : ℚ)) = true := by with_unfolding_all rfl
    exact of_decide_eq_true h

/-- Witness for the amended C3 at the concrete depth-3 form `wQ3`, at the
first index where the factorial divisor differs from the claimed one. -/
theorem completion_superfactorial_recurrence_witness :
    2 < wQ3.depth ∧
    wQ3.completion.list.getD 3 WeilRepQuasiModularForm.dfltQ
      = ((wQ3.completion.list.getD 2 WeilRepQuasiModularForm.dfltQ).shift).div
          ((Nat.factorial 3 : ℚ)) :=
  ⟨by decide,
    (WeilRepQuasiModularForm.completion_superfactorial_recurrence wQ3).2.2.2.2.2 2
      (by decide)⟩

instance {e a : Type} [DecidableEq e] [DecidableEq a] : DecidableEq (Except e a) :=
  fun x y =>
    match x, y with
    | .ok u, .ok v => decidable_of_iff (u = v) (by simp)
    | .ok _, .error _ => .isFalse (by simp)
    | .error _, .ok _ => .isFalse (by simp)
    | .error u, .error v => decidable_of_iff (u = v) (by simp)

/-- Concrete truthy quasimodular form over a different (2 x 2) Gram
matrix. -/
def wQg : WeilRepQuasiModularForm :=
  ⟨1, [[4, 0], [0, 4]], [⟨1, [[4, 0], [0, 4]], [(0, ⟨0, [1]⟩)]⟩]⟩

/-- Concrete zero (falsy) quasimodular form over the same 2 x 2 Gram
matrix. -/
def wQzero : WeilRepQuasiModularForm :=
  ⟨1, [[4, 0], [0, 4]], [⟨1, [[4, 0], [0, 4]], [(0, ⟨0, [0]⟩)]⟩]⟩

namespace WeilRepQuasiModularForm

/-- C5 (amended): for a truthy (nonzero) second operand, `+` and `-`
reject differing Gram matrices, and with equal Gram matrices differing
weights, with the incompatibility errors, before any termwise
computation. -/
theorem add_sub_incompatibility (f g : WeilRepQuasiModularForm)
    (hg : g.isFalsy = false) :
    (f.gram ≠ g.gram →
      f.add g = .error "Incompatible Gram matrices" ∧
      f.sub g = .error "Incompatible Gram matrices") ∧
    (f.gram = g.gram → f.weight ≠ g.weight →
      f.add g = .error "Incompatible weights" ∧
      f.sub g = .error "Incompatible weights") := by
  constructor
  · intro hgram
    constructor
    · unfold add
      rw [if_neg (by simp [hg]), if_pos hgram]
    · unfold sub
      rw [if_neg (by simp [hg]), if_pos hgram]
  · intro hgram hw
    constructor
    · unfold add
      rw [if_neg (by simp [hg]), if_neg (by simpa using hgram), if_pos hw]
    · unfold sub
      rw [if_neg (by simp [hg]), if_neg (by simpa using hgram), if_pos hw]

end WeilRepQuasiModularForm

/-- Witness for the amended C5: a truthy operand with a different Gram
matrix is rejected, and a truthy operand with equal Gram matrix but a
different weight is rejected. -/
theorem add_sub_incompatibility_witness :
    wQg.isFalsy = false ∧ wQ1.gram ≠ wQg.gram ∧
    (wQ1.add wQg = .error "Incompatible Gram matrices" ∧
      wQ1.sub wQg = .error "Incompatible Gram matrices") ∧
    wQ3.gram = wQ1.gram ∧ wQ3.weight ≠ wQ1.weight ∧ wQ1.isFalsy = false ∧
    (wQ3.add wQ1 = .error "Incompatible weights" ∧
      wQ3.sub wQ1 = .error "Incompatible weights") :=
  ⟨by decide, by decide,
    (WeilRepQuasiModularForm.add_sub_incompatibility wQ1 wQg (by decide)).1 (by decide),
    by decide, by decide, by decide,
    (WeilRepQuasiModularForm.add_sub_incompatibility wQ3 wQ1 (by decide)).2
      (by decide) (by decide)⟩

/-- Counterexample for C5 as stated: a zero (falsy) operand whose Gram
matrix differs from the left operand's is not rejected; `+` and `-` return
the left operand unchanged without raising any incompatibility error. -/
theorem add_incompat_claim_cex :
    wQ1.gram ≠ wQzero.gram ∧
    wQ1.add wQzero = .ok wQ1 ∧ wQ1.sub wQzero = .ok wQ1 := by
  refine ⟨by decide, by decide, by decide⟩

/-- C9: a falsy operand makes `+` and `-` return the left quasimodular
form unchanged with no Gram-matrix or weight check (the statement has no
compatibility hypotheses at all), and makes the almost-holomorphic
completion's `+` and `-` return the very same completion object. -/
theorem falsy_operand_short_circuit :
    (∀ f x : WeilRepQuasiModularForm, x.isFalsy = true →
      f.add x = .ok f ∧ f.sub x = .ok f) ∧
    (∀ (A : WeilRepAlmostHolomorphicModularForm) (x : WeilRepQuasiModularForm),
      x.isFalsy = true → A.add (.qm x) = .ok A ∧ A.sub (.qm x) = .ok A) := by
  constructor
  · intro f x hx
    constructor
    · unfold WeilRepQuasiModularForm.add
      rw [if_pos hx]
    · unfold WeilRepQuasiModularForm.sub
      rw [if_pos hx]
  · intro A x hx
    constructor
    · unfold WeilRepAlmostHolomorphicModularForm.add
      dsimp only
      rw [if_pos hx]
    · unfold WeilRepAlmostHolomorphicModularForm.sub
      dsimp only
      rw [if_pos hx]

/-- Witness for C9: the concrete zero form `wQzero` has a Gram matrix
different from `wQ1`'s, yet `+`/`-` return `wQ1` itself, and adding it to
a concrete completion returns the same completion object. -/
theorem falsy_operand_short_circuit_witness :
    wQzero.isFalsy = true ∧ wQ1.gram ≠ wQzero.gram ∧
    (wQ1.add wQzero = .ok wQ1 ∧ wQ1.sub wQzero = .ok wQ1) ∧
    (wQ3.completion.add (.qm wQzero) = .ok wQ3.completion ∧
      wQ3.completion.sub (.qm wQzero) = .ok wQ3.completion) :=
  ⟨by decide, by decide,
    falsy_operand_short_circuit.1 wQ1 wQzero (by decide),
    falsy_operand_short_circuit.2 wQ3.completion wQzero (by decide)⟩

/-- C8: mock-form arithmetic keeps the shadow in lock-step: `+`/`-`
combine shadows exactly when the other operand is a mock form and pass the
shadow through unchanged otherwise; scalar multiplication and division
always scale the shadow (by `c`, resp. `1/c`); non-scalar multiplication
and `derivative` signal not-implemented instead of computing. -/
theorem mock_shadow_arithmetic :
    (∀ m x : WeilRepMockModularForm,
      (m.add (.mock x)).shadow = m.shadow.add x.shadow ∧
      (m.sub (.mock x)).shadow = m.shadow.sub x.shadow ∧
      (m.add (.mock x)).fe = (m.toForm.add x.toForm).fe ∧
      (m.sub (.mock x)).fe = (m.toForm.sub x.toForm).fe) ∧
    (∀ (m : WeilRepMockModularForm) (b : WeilRepModularForm),
      (m.add (.form b)).shadow = m.shadow ∧
      (m.sub (.form b)).shadow = m.shadow ∧
      (m.add (.form b)).fe = (m.toForm.add b).fe ∧
      (m.sub (.form b)).fe = (m.toForm.sub b).fe) ∧
    (∀ (m : WeilRepMockModularForm) (c : ℚ),
      m.mul (.inl c) = some ⟨m.weight, m.gram,
        (WeilRepModularForm.smul c m.toForm).fe,
        WeilRepModularForm.smul c m.shadow⟩ ∧
      m.div c = some ⟨m.weight, m.gram,
        (WeilRepModularForm.smul c⁻¹ m.toForm).fe,
        WeilRepModularForm.smul c⁻¹ m.shadow⟩) ∧
    (∀ (m : WeilRepMockModularForm) (b : WeilRepModularForm),
      m.mul (.inr b) = none) ∧
    (∀ m : WeilRepMockModularForm, m.derivative = none) :=
  ⟨fun _ _ => ⟨rfl, rfl, rfl, rfl⟩,
    fun _ _ => ⟨rfl, rfl, rfl, rfl⟩,
    fun _ _ => ⟨rfl, rfl⟩,
    fun _ _ => rfl,
    fun _ => rfl⟩

namespace PSeries

/-- C7 (amended): the offset derivative of a falsy series is the zero
series at the original precision; for a truthy series the precision drops
by `floor offset` and every coefficient strictly below the new precision
`prec - floor offset` is `(n + offset) * f[n]` (coefficients of
`[val, prec)` at or above the new precision are truncated away). -/
theorem seriesD_spec (o : ℚ) (f : PSeries) :
    (f.isZero = true → seriesD o f = ⟨f.prec, []⟩) ∧
    (f.isZero = false →
      (seriesD o f).prec = f.prec - ⌊o⌋ ∧
      ∀ n : ℤ, n < f.prec - ⌊o⌋ →
        (seriesD o f).coeff n = ((n : ℚ) + o) * f.coeff n) :=
  ⟨fun h => seriesD_of_isZero o f h,
    fun h => ⟨prec_seriesD o f h, fun n hn => coeff_seriesD o f h n hn⟩⟩

end PSeries

/-- Witness for the amended C7 at offset 1 and the concrete series
`1 + q + O(q^2)`. -/
theorem seriesD_spec_witness :
    (⟨0, [1, 1]⟩ : PSeries).isZero = false ∧
    ((PSeries.seriesD 1 ⟨0, [1, 1]⟩).prec = (⟨0, [1, 1]⟩ : PSeries).prec - ⌊(1 : ℚ)⌋ ∧
      ∀ n : ℤ, n < (⟨0, [1, 1]⟩ : PSeries).prec - ⌊(1 : ℚ)⌋ →
        (PSeries.seriesD 1 ⟨0, [1, 1]⟩).coeff n
          = ((n : ℚ) + 1) * (⟨0, [1, 1]⟩ : PSeries).coeff n) :=
  ⟨by decide, (PSeries.seriesD_spec 1 ⟨0, [1, 1]⟩).2 (by decide)⟩

/-- Counterexample for C7 as stated: with offset 1 the exponent
`n = 1` lies in `[val, prec) = [0, 2)` but its coefficient is truncated
away (the result is `1 + O(q)`), so `D(f)[n] = (n + offset) * f[n]` fails
there. -/
theorem seriesD_claim_cex :
    (⟨0, [1, 1]⟩ : PSeries).valuation = 0 ∧
    (⟨0, [1, 1]⟩ : PSeries).prec = 2 ∧
    (PSeries.seriesD 1 ⟨0, [1, 1]⟩).coeff 1 = 0 ∧
    ((1 : ℚ) + 1) * (⟨0, [1, 1]⟩ : PSeries).coeff 1 = 2 ∧
    (PSeries.seriesD 1 ⟨0, [1, 1]⟩).coeff 1
      ≠ ((1 : ℚ) + 1) * (⟨0, [1, 1]⟩ : PSeries).coeff 1 := by
  refine ⟨by decide, by decide, ?_, ?_, ?_⟩
  · exact of_decide_eq_true (by with_unfolding_all rfl)
  · exact of_decide_eq_true (by with_unfolding_all rfl)
  · exact of_decide_eq_true (by with_unfolding_all rfl)

namespace WeilRepQuasiModularForm

/-- The loop order of the tensor accumulation: all index pairs `(i, jj)`
with `i < a`, `jj < b`, outer index major. -/
def pairList (a b : ℕ) : List (ℕ × ℕ) :=
  (List.range a).flatMap (fun i => (List.range b).map (fun jj => (i, jj)))

/-- One accumulator update of the tensor loop. -/
def pairApply (t1 t2 : List WeilRepModularForm)
    (Z : List WeilRepModularForm) (p : ℕ × ℕ) : List WeilRepModularForm :=
  Z.set (p.1 + p.2) ((Z.getD (p.1 + p.2) WeilRepModularForm.dflt).add
    ((t1.getD p.1 WeilRepModularForm.dflt).mul (t2.getD p.2 WeilRepModularForm.dflt)))

theorem mem_pairList (a b : ℕ) (p : ℕ × ℕ) :
    p ∈ pairList a b ↔ p.1 < a ∧ p.2 < b := by
  unfold pairList
  rw [List.mem_flatMap]
  constructor
  · rintro ⟨i, hi, hp⟩
    rw [List.mem_map] at hp
    obtain ⟨jj, hjj, rfl⟩ := hp
    rw [List.mem_range] at hi hjj
    exact ⟨hi, hjj⟩
  · rintro ⟨h1, h2⟩
    exact ⟨p.1, List.mem_range.mpr h1,
      List.mem_map.mpr ⟨p.2, List.mem_range.mpr h2, rfl⟩⟩

/-- The nested tensor loop is the fold of `pairApply` over `pairList`. -/
theorem nested_foldl_eq_pairList (t1 t2 : List WeilRepModularForm)
    (a b : ℕ) (X : List WeilRepModularForm) :
    (List.range a).foldl (fun Y i =>
      (List.range b).foldl (fun Z jj =>
        Z.set (i + jj) ((Z.getD (i + jj) WeilRepModularForm.dflt).add
          ((t1.getD i WeilRepModularForm.dflt).mul
            (t2.getD jj WeilRepModularForm.dflt)))) Y) X
    = (pairList a b).foldl (pairApply t1 t2) X := by
  unfold pairList
  rw [foldl_flatMap]
  simp only [List.foldl_map]
  rfl

theorem length_foldl_pairApply (t1 t2 : List WeilRepModularForm)
    (ps : List (ℕ × ℕ)) (X : List WeilRepModularForm) :
    (ps.foldl (pairApply t1 t2) X).length = X.length := by
  induction ps generalizing X with
  | nil => rfl
  | cons p ps ih =>
    rw [List.foldl_cons, ih]
    unfold pairApply
    rw [List.length_set]

theorem getD_foldl_pairApply (t1 t2 : List WeilRepModularForm)
    (ps : List (ℕ × ℕ)) (X : List WeilRepModularForm) (m : ℕ)
    (hin : ∀ p ∈ ps, p.1 + p.2 < X.length) :
    (ps.foldl (pairApply t1 t2) X).getD m WeilRepModularForm.dflt
      = ps.foldl (fun acc p =>
          if p.1 + p.2 = m then
            acc.add ((t1.getD p.1 WeilRepModularForm.dflt).mul
              (t2.getD p.2 WeilRepModularForm.dflt))
          else acc)
        (X.getD m WeilRepModularForm.dflt) := by
  induction ps generalizing X with
  | nil => rfl
  | cons p ps ih =>
    rw [List.foldl_cons, List.foldl_cons]
    have hlen : (pairApply t1 t2 X p).length = X.length := by
      unfold pairApply
      rw [List.length_set]
    rw [ih _ (fun q hq => by rw [hlen]; exact hin q (List.mem_cons_of_mem p hq))]
    congr 1
    by_cases hpm : p.1 + p.2 = m
    · rw [if_pos hpm]
      unfold pairApply
      rw [hpm, getD_set_same _ _ _ _ (hpm ▸ hin p (List.mem_cons_self p ps))]
    · rw [if_neg hpm]
      unfold pairApply
      rw [getD_set_other _ _ _ _ _ hpm]

/-- A conditional accumulation is the plain `add`-fold over the filtered,
mapped summand list. -/
theorem condFold_eq_filter (ps : List (ℕ × ℕ)) (m : ℕ)
    (start : WeilRepModularForm) (prod : ℕ × ℕ → WeilRepModularForm) :
    ps.foldl (fun acc p => if p.1 + p.2 = m then acc.add (prod p) else acc) start
      = ((ps.filter (fun p => p.1 + p.2 == m)).map prod).foldl
          WeilRepModularForm.add start := by
  induction ps generalizing start with
  | nil => rfl
  | cons p ps ih =>
    rw [List.foldl_cons, List.filter_cons]
    by_cases hpm : p.1 + p.2 = m
    · rw [if_pos hpm, if_pos (by simpa using hpm), List.map_cons, List.foldl_cons, ih]
    · rw [if_neg hpm, if_neg (by simpa using hpm), ih]

/-- The accumulated term list `X` of the tensor branch of `__mul__`. -/
def mulTerms (self other : WeilRepQuasiModularForm) : List WeilRepModularForm :=
  let k := self.weight + other.weight
  let w := gramDirectSum self.gram other.gram
  let t1 := self.terms
  let t2 := other.terms
  let r := self.depth
  let s := other.depth
  let rs := r + s
  let j : ℚ := k - rs - rs
  let p := self.precision
  let X0 := (List.range (rs + 1)).map
    (fun (i : ℕ) => WeilRepModularForm.zero ((i : ℚ) + (i : ℚ) + j) w p)
  (List.range (r + 1)).foldl (fun Y i =>
      (List.range (s + 1)).foldl (fun Z jj =>
        Z.set (i + jj) ((Z.getD (i + jj) WeilRepModularForm.dflt).add
          ((t1.getD i WeilRepModularForm.dflt).mul
            (t2.getD jj WeilRepModularForm.dflt)))) Y) X0

theorem mul_eq_init (f g : WeilRepQuasiModularForm) :
    f.mul g = init (f.weight + g.weight) (gramDirectSum f.gram g.gram)
      (mulTerms f g) := rfl

/-- Entry `m` of the tensor accumulation as the loop computes it: the zero
form of weight `2m + (k - 2rs)` over the direct-sum lattice at the left
factor's precision, onto which every product `t1[i] * t2[jj]` with
`i + jj = m` (for all `i ≤ r`, `jj ≤ s`, in loop order) is accumulated. -/
def mulAccum (self other : WeilRepQuasiModularForm) (m : ℕ) : WeilRepModularForm :=
  (List.range (self.depth + 1)).foldl (fun acc i =>
    (List.range (other.depth + 1)).foldl (fun acc2 jj =>
      if i + jj = m then
        acc2.add ((self.terms.getD i WeilRepModularForm.dflt).mul
          (other.terms.getD jj WeilRepModularForm.dflt))
      else acc2) acc)
    (WeilRepModularForm.zero ((m : ℚ) + m + (self.weight + other.weight
        - ((self.depth + other.depth : ℕ) : ℚ)
        - ((self.depth + other.depth : ℕ) : ℚ)))
      (gramDirectSum self.gram other.gram) self.precision)

theorem mulAccum_eq_pairs (f g : WeilRepQuasiModularForm) (m : ℕ) :
    mulAccum f g m = (pairList (f.depth + 1) (g.depth + 1)).foldl
      (fun acc p => if p.1 + p.2 = m then
          acc.add ((f.terms.getD p.1 WeilRepModularForm.dflt).mul
            (g.terms.getD p.2 WeilRepModularForm.dflt))
        else acc)
      (WeilRepModularForm.zero ((m : ℚ) + m + (f.weight + g.weight
          - ((f.depth + g.depth : ℕ) : ℚ) - ((f.depth + g.depth : ℕ) : ℚ)))
        (gramDirectSum f.gram g.gram) f.precision) := by
  unfold mulAccum pairList
  rw [foldl_flatMap]
  simp only [List.foldl_map]

theorem length_mulTerms (f g : WeilRepQuasiModularForm) :
    (mulTerms f g).length = f.depth + g.depth + 1 := by
  unfold mulTerms
  rw [nested_foldl_eq_pairList, length_foldl_pairApply]
  simp

theorem getD_mulTerms (f g : WeilRepQuasiModularForm) (m : ℕ)
    (hm : m ≤ f.depth + g.depth) :
    (mulTerms f g).getD m WeilRepModularForm.dflt = mulAccum f g m := by
  unfold mulTerms
  rw [nested_foldl_eq_pairList]
  rw [getD_foldl_pairApply _ _ _ _ _ (by
    intro p hp
    rw [mem_pairList] at hp
    simp only [List.length_map, List.length_range]
    omega)]
  rw [getD_map_range _ _ _ _ (by omega)]
  rw [mulAccum_eq_pairs]

end WeilRepQuasiModularForm

theorem length_flatMap_const {α β γ : Type} (l1 : List α) (l2 : List β)
    (g : α → β → γ) :
    (l1.flatMap (fun a => l2.map (g a))).length = l1.length * l2.length := by
  induction l1 with
  | nil => simp
  | cons a t ih =>
    rw [List.flatMap_cons, List.length_append, List.length_map, ih]
    simp [Nat.succ_mul]
    omega

theorem getD_flatMap_pair {α β γ : Type} (l1 : List α) (l2 : List β)
    (g : α → β → γ) (d : γ) (da : α) (db : β) (c1 c2 : ℕ)
    (h1 : c1 < l1.length) (h2 : c2 < l2.length) :
    (l1.flatMap (fun a => l2.map (g a))).getD (c1 * l2.length + c2) d
      = g (l1.getD c1 da) (l2.getD c2 db) := by
  induction l1 generalizing c1 with
  | nil => simp at h1
  | cons a t ih =>
    rw [List.flatMap_cons]
    cases c1 with
    | zero =>
      rw [Nat.zero_mul, Nat.zero_add]
      rw [List.getD_append _ _ _ _ (by simpa using h2)]
      rw [List.getD_eq_getElem _ _ (by simpa using h2), List.getElem_map,
        List.getD_eq_getElem _ _ h2]
      rfl
    | succ c1' =>
      have hge : l2.length ≤ (c1' + 1) * l2.length + c2 :=
        le_trans (Nat.le_mul_of_pos_left _ (Nat.succ_pos c1')) (Nat.le_add_right _ _)
      rw [List.getD_append_right _ _ _ _ (by simpa using hge)]
      have hidx : (c1' + 1) * l2.length + c2 - ((l2.map (g a)).length)
          = c1' * l2.length + c2 := by
        rw [List.length_map, Nat.succ_mul]
        omega
      rw [hidx]
      rw [ih c1' (by simpa using h1)]
      rfl

namespace WeilRepModularForm

/-- Default component used for out-of-range accesses. -/
def dfltC : ℚ × PSeries := (0, ⟨0, []⟩)

/-- Component series of a base form at index `c`. -/
def series (b : WeilRepModularForm) (c : ℕ) : PSeries := (b.fe.getD c dfltC).2

/-- Denotation of one component of a base form (proof infrastructure
only). -/
noncomputable def den (b : WeilRepModularForm) (c : ℕ) : AddMonoidAlgebra ℚ ℤ :=
  (b.series c).den

theorem den_empty_series : (⟨0, []⟩ : PSeries).den = 0 := by
  unfold PSeries.den
  simp

theorem den_of_le (b : WeilRepModularForm) (c : ℕ) (h : b.fe.length ≤ c) :
    b.den c = 0 := by
  unfold den series
  rw [List.getD_eq_default _ _ h]
  exact den_empty_series

theorem fe_length_add (x y : WeilRepModularForm)
    (h : x.fe.length = y.fe.length) :
    (x.add y).fe.length = x.fe.length := by
  unfold add
  by_cases hx : x.fe.isEmpty
  · rw [if_pos hx]
    rw [List.isEmpty_iff] at hx
    rw [← h, hx]
  · rw [if_neg hx]
    by_cases hy : y.fe.isEmpty
    · rw [if_pos hy]
    · rw [if_neg hy]
      dsimp only
      rw [List.length_zipWith]
      omega

theorem den_add_form (x y : WeilRepModularForm)
    (h : x.fe.length = y.fe.length ∨ x.fe = [] ∨ y.fe = []) (c : ℕ) :
    (x.add y).den c = x.den c + y.den c := by
  unfold add
  by_cases hx : x.fe.isEmpty
  · rw [if_pos hx]
    rw [List.isEmpty_iff] at hx
    rw [den_of_le x c (by rw [hx]; exact Nat.zero_le c), zero_add]
  · rw [if_neg hx]
    by_cases hy : y.fe.isEmpty
    · rw [if_pos hy]
      rw [List.isEmpty_iff] at hy
      rw [den_of_le y c (by rw [hy]; exact Nat.zero_le c), add_zero]
    · rw [if_neg hy]
      have hlen : x.fe.length = y.fe.length := by
        rcases h with h | h | h
        · exact h
        · exact absurd (by rw [h]; rfl) hx
        · exact absurd (by rw [h]; rfl) hy
      unfold den series
      dsimp only
      by_cases hc : c < x.fe.length
      · have hz : (List.zipWith (fun a b => (a.1, a.2.add b.2)) x.fe y.fe).getD c dfltC
            = ((x.fe.getD c dfltC).1,
                (x.fe.getD c dfltC).2.add ((y.fe.getD c dfltC).2)) := by
          rw [List.getD_eq_getElem _ _ (by rw [List.length_zipWith]; omega)]
          rw [List.getElem_zipWith]
          rw [List.getD_eq_getElem _ _ hc, List.getD_eq_getElem _ _ (by omega)]
        rw [hz]
        exact PSeries.den_add _ _
      · rw [List.getD_eq_default _ _ (by rw [List.length_zipWith]; omega),
          List.getD_eq_default _ _ (by omega), List.getD_eq_default _ _ (by omega)]
        show (⟨0, []⟩ : PSeries).den = (⟨0, []⟩ : PSeries).den + (⟨0, []⟩ : PSeries).den
        rw [den_empty_series, add_zero]

theorem fe_length_mul (x y : WeilRepModularForm) :
    (x.mul y).fe.length = x.fe.length * y.fe.length := by
  unfold mul
  exact length_flatMap_const _ _ _

theorem den_mul_pair (x y : WeilRepModularForm) (c1 c2 : ℕ)
    (h1 : c1 < x.fe.length) (h2 : c2 < y.fe.length) :
    (x.mul y).den (c1 * y.fe.length + c2) = x.den c1 * y.den c2 := by
  unfold mul den series
  dsimp only
  rw [getD_flatMap_pair _ _ _ _ dfltC dfltC c1 c2 h1 h2]
  exact PSeries.den_mul _ _

theorem isZero_iff_den (b : WeilRepModularForm) :
    b.isZero = true ↔ ∀ c, b.den c = 0 := by
  unfold isZero
  rw [List.all_eq_true]
  constructor
  · intro h c
    unfold den series
    by_cases hc : c < b.fe.length
    · rw [List.getD_eq_getElem _ _ hc]
      rw [PSeries.den_eq_zero_iff]
      exact h _ (b.fe.getElem_mem hc)
    · rw [List.getD_eq_default _ _ (by omega)]
      exact den_empty_series
  · intro h x hx
    rcases List.getElem_of_mem hx with ⟨i, hi, rfl⟩
    have hd := h i
    unfold den series at hd
    rw [List.getD_eq_getElem _ _ hi] at hd
    exact (PSeries.den_eq_zero_iff _).mp hd

theorem isZero_eq_false_of_den (b : WeilRepModularForm) (c : ℕ)
    (h : b.den c ≠ 0) : b.isZero = false := by
  rw [← Bool.not_eq_true, isZero_iff_den]
  push_neg
  exact ⟨c, h⟩

theorem den_ne_zero_of_isZero_eq_false (b : WeilRepModularForm)
    (h : b.isZero = false) : ∃ c, b.den c ≠ 0 := by
  by_contra hc
  push_neg at hc
  rw [(isZero_iff_den b).mpr hc] at h
  exact Bool.true_eq_false ▸ (by exact absurd h (by simp))

end WeilRepModularForm

theorem WeilRepModularForm.zero_add_form (k : ℚ) (S : List (List ℤ)) (p : ℤ)
    (x : WeilRepModularForm) : (WeilRepModularForm.zero k S p).add x = x := by
  unfold WeilRepModularForm.zero WeilRepModularForm.add
  rfl

namespace WeilRepQuasiModularForm

theorem condFold_const (ps : List (ℕ × ℕ)) (m : ℕ) (start : WeilRepModularForm)
    (prod : ℕ × ℕ → WeilRepModularForm)
    (h : ∀ p ∈ ps, p.1 + p.2 ≠ m) :
    ps.foldl (fun acc p => if p.1 + p.2 = m then acc.add (prod p) else acc) start
      = start := by
  induction ps generalizing start with
  | nil => rfl
  | cons p ps ih =>
    rw [List.foldl_cons, if_neg (h p (List.mem_cons_self p ps))]
    exact ih start (fun q hq => h q (List.mem_cons_of_mem p hq))

theorem pairList_succ_succ (a b : ℕ) :
    pairList (a + 1) (b + 1)
      = (0, 0) :: (((List.range b).map (fun jj => (0, jj + 1)))
          ++ ((List.range a).map Nat.succ).flatMap
            (fun i => (List.range (b + 1)).map (fun jj => (i, jj)))) := by
  unfold pairList
  rw [List.range_succ_eq_map, List.flatMap_cons]
  congr 1
  rw [List.range_succ_eq_map b]
  rw [List.map_cons]
  rw [List.cons_append]
  congr 2
  rw [List.map_map]
  rfl

theorem mulAccum_zero (f g : WeilRepQuasiModularForm) :
    mulAccum f g 0 = (f.terms.getD 0 WeilRepModularForm.dflt).mul
      (g.terms.getD 0 WeilRepModularForm.dflt) := by
  rw [mulAccum_eq_pairs]
  rw [pairList_succ_succ]
  rw [List.foldl_cons]
  rw [if_pos (by norm_num : ((0, 0) : ℕ × ℕ).1 + ((0, 0) : ℕ × ℕ).2 = 0)]
  rw [WeilRepModularForm.zero_add_form]
  apply condFold_const
  intro p hp
  rw [List.mem_append] at hp
  rcases hp with hp | hp
  · rw [List.mem_map] at hp
    obtain ⟨jj, _, rfl⟩ := hp
    simp
  · rw [List.mem_flatMap] at hp
    obtain ⟨i, hi, hp⟩ := hp
    rw [List.mem_map] at hi hp
    obtain ⟨i0, _, rfl⟩ := hi
    obtain ⟨jj, _, rfl⟩ := hp
    simp [Nat.succ_eq_add_one]

/-- C4: for well-formed expanded operands, the tensor product adds weights
and depths, combines the Gram matrices by direct sum, and its term at every
combined index `m = i + jj` is exactly the accumulation of the products
`t1[i] * t2[jj]` over all pairs (`mulAccum`). -/
theorem mul_spec (f g : WeilRepQuasiModularForm) (hf : f.WF) (hg : g.WF)
    (h1 : 1 ≤ f.depth) (h2 : 1 ≤ g.depth) :
    (f.mul g).weight = f.weight + g.weight ∧
    (f.mul g).gram = gramDirectSum f.gram g.gram ∧
    (f.mul g).depth = f.depth + g.depth ∧
    (∀ m, m ≤ f.depth + g.depth →
      (f.mul g).terms.getD m WeilRepModularForm.dflt = mulAccum f g m) := by
  have hlenf : 2 ≤ f.terms.length := by
    unfold depth at h1
    omega
  have hleng : 2 ≤ g.terms.length := by
    unfold depth at h2
    omega
  have hheadf : (f.terms.getD 0 WeilRepModularForm.dflt).isZero = false := by
    rw [← headD_eq_getD]
    exact hf.2 hlenf
  have hheadg : (g.terms.getD 0 WeilRepModularForm.dflt).isZero = false := by
    rw [← headD_eq_getD]
    exact hg.2 hleng
  have hhead : ((mulTerms f g).headD WeilRepModularForm.dflt).isZero = false := by
    rw [headD_eq_getD, getD_mulTerms f g 0 (by omega), mulAccum_zero]
    exact WeilRepModularForm.isZero_mul_form _ _ hheadf hheadg
  have hlen2 : 2 ≤ (mulTerms f g).length := by
    rw [length_mulTerms]
    omega
  have heq : f.mul g = ⟨f.weight + g.weight, gramDirectSum f.gram g.gram,
      mulTerms f g⟩ := by
    rw [mul_eq_init, init_eq_of_head _ _ _ hlen2 hhead]
  refine ⟨by rw [heq], by rw [heq], ?_, ?_⟩
  · have hd : (f.mul g).depth = (mulTerms f g).length - 1 := by
      rw [heq]
      rfl
    rw [hd, length_mulTerms]
    omega
  · intro m hm
    rw [heq]
    dsimp only
    exact getD_mulTerms f g m hm

end WeilRepQuasiModularForm

/-- Witness for C4: the tensor square of the concrete depth-1 form `wQ1`. -/
theorem mul_spec_witness :
    wQ1.WF ∧ 1 ≤ wQ1.depth ∧
    ((wQ1.mul wQ1).weight = wQ1.weight + wQ1.weight ∧
      (wQ1.mul wQ1).gram = gramDirectSum wQ1.gram wQ1.gram ∧
      (wQ1.mul wQ1).depth = wQ1.depth + wQ1.depth ∧
      (∀ m, m ≤ wQ1.depth + wQ1.depth →
        (wQ1.mul wQ1).terms.getD m WeilRepModularForm.dflt
          = WeilRepQuasiModularForm.mulAccum wQ1 wQ1 m)) :=
  ⟨by decide, by decide,
    WeilRepQuasiModularForm.mul_spec wQ1 wQ1 (by decide) (by decide)
      (by decide) (by decide)⟩

namespace WeilRepQuasiModularForm

theorem den_foldl_add_list (c L : ℕ) (l : List WeilRepModularForm)
    (start : WeilRepModularForm)
    (hl : ∀ x ∈ l, x.fe.length = L)
    (hstart : start.fe = [] ∨ start.fe.length = L) :
    ((l.foldl WeilRepModularForm.add start).den c
      = start.den c + (l.map (fun x => x.den c)).sum) := by
  induction l generalizing start with
  | nil => simp
  | cons x l ih =>
    have hxl : x.fe.length = L := hl x (List.mem_cons_self x l)
    have hadd_den : (start.add x).den c = start.den c + x.den c := by
      apply WeilRepModularForm.den_add_form
      rcases hstart with h | h
      · right
        left
        exact h
      · left
        rw [h, hxl]
    have hadd_struct : (start.add x).fe = [] ∨ (start.add x).fe.length = L := by
      rcases hstart with h | h
      · right
        unfold WeilRepModularForm.add
        rw [if_pos (by rw [h]; rfl)]
        exact hxl
      · right
        rw [WeilRepModularForm.fe_length_add _ _ (by rw [h, hxl]), h]
    rw [List.foldl_cons,
      ih (start.add x) (fun y hy => hl y (List.mem_cons_of_mem x hy)) hadd_struct,
      hadd_den, List.map_cons, List.sum_cons]
    ring

theorem fe_length_foldl_add_inv (L : ℕ) (l : List WeilRepModularForm)
    (start : WeilRepModularForm) (hstart : start.fe.length = L)
    (hl : ∀ x ∈ l, x.fe.length = L) :
    ((l.foldl WeilRepModularForm.add start).fe.length = L) := by
  induction l generalizing start with
  | nil => exact hstart
  | cons x l ih =>
    rw [List.foldl_cons]
    apply ih
    · rw [WeilRepModularForm.fe_length_add _ _
        (by rw [hstart, hl x (List.mem_cons_self x l)]), hstart]
    · exact fun y hy => hl y (List.mem_cons_of_mem x hy)

theorem fe_length_foldl_add (L : ℕ) (l : List WeilRepModularForm)
    (start : WeilRepModularForm) (hstart : start.fe = [])
    (hne : l ≠ []) (hl : ∀ x ∈ l, x.fe.length = L) :
    (l.foldl WeilRepModularForm.add start).fe.length = L := by
  cases l with
  | nil => exact absurd rfl hne
  | cons x l =>
    rw [List.foldl_cons]
    have hsx : start.add x = x := by
      unfold WeilRepModularForm.add
      rw [if_pos (by rw [hstart]; rfl)]
    rw [hsx]
    exact fe_length_foldl_add_inv L l x (hl x (List.mem_cons_self x l))
      (fun y hy => hl y (List.mem_cons_of_mem x hy))

theorem sum_map_filter_eq {M : Type} [AddCommMonoid M] (ps : List (ℕ × ℕ))
    (m : ℕ) (F : ℕ × ℕ → M) :
    ((ps.filter (fun p => p.1 + p.2 == m)).map F).sum
      = (ps.map (fun p => if p.1 + p.2 = m then F p else 0)).sum := by
  induction ps with
  | nil => rfl
  | cons p ps ih =>
    rw [List.filter_cons, List.map_cons, List.sum_cons]
    by_cases h : p.1 + p.2 = m
    · rw [if_pos (by simpa using h), List.map_cons, List.sum_cons, ih, if_pos h]
    · rw [if_neg (by simpa using h), ih, if_neg h, zero_add]

theorem sum_map_range {M : Type} [AddCommMonoid M] (n : ℕ) (h : ℕ → M) :
    ((List.range n).map h).sum = ∑ jj in Finset.range n, h jj := by
  induction n with
  | zero => simp
  | succ n ih =>
    rw [List.range_succ, List.map_append, List.sum_append, ih,
      Finset.sum_range_succ]
    simp

theorem sum_map_pairList {M : Type} [AddCommMonoid M] (a b : ℕ)
    (G : ℕ × ℕ → M) :
    ((pairList a b).map G).sum
      = ∑ i in Finset.range a, ∑ jj in Finset.range b, G (i, jj) := by
  unfold pairList
  induction a with
  | zero => simp
  | succ a iha =>
    rw [List.range_succ, List.flatMap_append, List.map_append, List.sum_append,
      iha, Finset.sum_range_succ]
    congr 1
    rw [List.flatMap_cons, List.flatMap_nil, List.append_nil, List.map_map]
    exact sum_map_range b _

end WeilRepQuasiModularForm

/-- Pairwise-summed offset structure of a tensor product. -/
def pairShape (sh1 sh2 : List ℚ) : List ℚ :=
  sh1.flatMap (fun o1 => sh2.map (fun o2 => o1 + o2))

theorem WeilRepModularForm.shape_mul (x y : WeilRepModularForm) :
    (x.mul y).shape = pairShape x.shape y.shape := by
  unfold WeilRepModularForm.mul WeilRepModularForm.shape pairShape
  dsimp only
  rw [List.map_flatMap]
  rw [List.flatMap_map]
  congr 1
  funext a
  rw [List.map_map, List.map_map]
  rfl

theorem WeilRepModularForm.shape_add (x y : WeilRepModularForm)
    (h : x.shape = y.shape) : (x.add y).shape = x.shape := by
  have hlen : x.fe.length = y.fe.length := by
    have := congrArg List.length h
    simpa [WeilRepModularForm.shape] using this
  unfold WeilRepModularForm.add
  by_cases hx : x.fe.isEmpty
  · rw [if_pos hx]
    exact h.symm
  · rw [if_neg hx]
    by_cases hy : y.fe.isEmpty
    · rw [if_pos hy]
    · rw [if_neg hy]
      unfold WeilRepModularForm.shape
      dsimp only
      apply List.ext_getElem
      · simp only [List.length_map, List.length_zipWith]
        omega
      · intro i h1 h2
        simp only [List.getElem_map, List.getElem_zipWith]

theorem WeilRepQuasiModularForm.terms_length_eq (q : WeilRepQuasiModularForm)
    (h : q.terms ≠ []) : q.terms.length = q.depth + 1 := by
  unfold WeilRepQuasiModularForm.depth
  have := List.length_pos.mpr h
  omega

theorem WeilRepQuasiModularForm.getD_mem_terms (q : WeilRepQuasiModularForm)
    (h : q.terms ≠ []) (i : ℕ) (hi : i ≤ q.depth) :
    q.terms.getD i WeilRepModularForm.dflt ∈ q.terms := by
  have hlen : i < q.terms.length := by
    rw [WeilRepQuasiModularForm.terms_length_eq q h]
    omega
  rw [List.getD_eq_getElem _ _ hlen]
  exact q.terms.getElem_mem hlen

namespace WeilRepQuasiModularForm

theorem pairList_filter_ne (a b m : ℕ) (ha : 0 < a) (hb : 0 < b)
    (hm : m ≤ (a - 1) + (b - 1)) :
    (pairList a b).filter (fun p => p.1 + p.2 == m) ≠ [] := by
  have hmem : (min m (a - 1), m - min m (a - 1))
      ∈ (pairList a b).filter (fun p => p.1 + p.2 == m) := by
    rw [List.mem_filter, mem_pairList]
    refine ⟨⟨by omega, by omega⟩, ?_⟩
    simp only [beq_iff_eq]
    omega
  exact List.ne_nil_of_mem hmem

theorem den_mulAccum (f g : WeilRepQuasiModularForm) (L1 L2 : ℕ)
    (hfne : f.terms ≠ []) (hgne : g.terms ≠ [])
    (hT1 : ∀ t ∈ f.terms, t.fe.length = L1)
    (hT2 : ∀ t ∈ g.terms, t.fe.length = L2) (m c : ℕ) :
    (mulAccum f g m).den c
      = ∑ i in Finset.range (f.depth + 1), ∑ jj in Finset.range (g.depth + 1),
          (if i + jj = m then
            ((f.terms.getD i WeilRepModularForm.dflt).mul
              (g.terms.getD jj WeilRepModularForm.dflt)).den c
          else 0) := by
  rw [mulAccum_eq_pairs, condFold_eq_filter]
  rw [den_foldl_add_list c (L1 * L2) _ _ (by
      intro x hx
      rw [List.mem_map] at hx
      obtain ⟨p, hp, rfl⟩ := hx
      rw [List.mem_filter, mem_pairList] at hp
      rw [WeilRepModularForm.fe_length_mul]
      rw [hT1 _ (getD_mem_terms f hfne p.1 (by omega)),
        hT2 _ (getD_mem_terms g hgne p.2 (by omega))])
    (by left; rfl)]
  rw [WeilRepModularForm.den_of_le _ _ (by
      show (WeilRepModularForm.zero _ _ _).fe.length ≤ c
      unfold WeilRepModularForm.zero
      simp), zero_add]
  rw [List.map_map, sum_map_filter_eq, sum_map_pairList]
  rfl

theorem fe_length_mulAccum (f g : WeilRepQuasiModularForm) (L1 L2 : ℕ)
    (hfne : f.terms ≠ []) (hgne : g.terms ≠ [])
    (hT1 : ∀ t ∈ f.terms, t.fe.length = L1)
    (hT2 : ∀ t ∈ g.terms, t.fe.length = L2) (m : ℕ)
    (hm : m ≤ f.depth + g.depth) :
    (mulAccum f g m).fe.length = L1 * L2 := by
  rw [mulAccum_eq_pairs, condFold_eq_filter]
  apply fe_length_foldl_add
  · rfl
  · intro hmap
    apply pairList_filter_ne (f.depth + 1) (g.depth + 1) m (by omega) (by omega)
      (by omega)
    exact List.map_eq_nil_iff.mp hmap
  · intro x hx
    rw [List.mem_map] at hx
    obtain ⟨p, hp, rfl⟩ := hx
    rw [List.mem_filter, mem_pairList] at hp
    rw [WeilRepModularForm.fe_length_mul]
    rw [hT1 _ (getD_mem_terms f hfne p.1 (by omega)),
      hT2 _ (getD_mem_terms g hgne p.2 (by omega))]

theorem shape_foldl_add_inv (sh : List ℚ) (l : List WeilRepModularForm)
    (start : WeilRepModularForm) (hstart : start.shape = sh)
    (hl : ∀ x ∈ l, x.shape = sh) :
    (l.foldl WeilRepModularForm.add start).shape = sh := by
  induction l generalizing start with
  | nil => exact hstart
  | cons x l ih =>
    rw [List.foldl_cons]
    apply ih
    · rw [WeilRepModularForm.shape_add _ _
        (by rw [hstart, hl x (List.mem_cons_self x l)]), hstart]
    · exact fun y hy => hl y (List.mem_cons_of_mem x hy)

theorem shape_foldl_add (sh : List ℚ) (l : List WeilRepModularForm)
    (start : WeilRepModularForm) (hstart : start.fe = [])
    (hne : l ≠ []) (hl : ∀ x ∈ l, x.shape = sh) :
    (l.foldl WeilRepModularForm.add start).shape = sh := by
  cases l with
  | nil => exact absurd rfl hne
  | cons x l =>
    rw [List.foldl_cons]
    have hsx : start.add x = x := by
      unfold WeilRepModularForm.add
      rw [if_pos (by rw [hstart]; rfl)]
    rw [hsx]
    exact shape_foldl_add_inv sh l x (hl x (List.mem_cons_self x l))
      (fun y hy => hl y (List.mem_cons_of_mem x hy))

theorem shape_mulAccum (f g : WeilRepQuasiModularForm) (sh1 sh2 : List ℚ)
    (hfne : f.terms ≠ []) (hgne : g.terms ≠ [])
    (hsh1 : ∀ t ∈ f.terms, t.shape = sh1)
    (hsh2 : ∀ t ∈ g.terms, t.shape = sh2) (m : ℕ)
    (hm : m ≤ f.depth + g.depth) :
    (mulAccum f g m).shape = pairShape sh1 sh2 := by
  rw [mulAccum_eq_pairs, condFold_eq_filter]
  apply shape_foldl_add
  · rfl
  · intro hmap
    apply pairList_filter_ne (f.depth + 1) (g.depth + 1) m (by omega) (by omega)
      (by omega)
    exact List.map_eq_nil_iff.mp hmap
  · intro x hx
    rw [List.mem_map] at hx
    obtain ⟨p, hp, rfl⟩ := hx
    rw [List.mem_filter, mem_pairList] at hp
    rw [WeilRepModularForm.shape_mul]
    rw [hsh1 _ (getD_mem_terms f hfne p.1 (by omega)),
      hsh2 _ (getD_mem_terms g hgne p.2 (by omega))]

end WeilRepQuasiModularForm

theorem WeilRepModularForm.den_congr_fe (b b' : WeilRepModularForm)
    (h : b.fe = b'.fe) (c : ℕ) : b.den c = b'.den c := by
  unfold WeilRepModularForm.den WeilRepModularForm.series
  rw [h]

namespace WeilRepQuasiModularForm

theorem mul_struct_of_heads (f g : WeilRepQuasiModularForm)
    (hheadf : (f.terms.getD 0 WeilRepModularForm.dflt).isZero = false)
    (hheadg : (g.terms.getD 0 WeilRepModularForm.dflt).isZero = false)
    (hrs : 1 ≤ f.depth + g.depth) :
    f.mul g = ⟨f.weight + g.weight, gramDirectSum f.gram g.gram, mulTerms f g⟩ := by
  rw [mul_eq_init]
  apply init_eq_of_head
  · rw [length_mulTerms]
    omega
  · rw [headD_eq_getD, getD_mulTerms f g 0 (by omega), mulAccum_zero]
    exact WeilRepModularForm.isZero_mul_form _ _ hheadf hheadg

theorem mul_struct_degenerate (f g : WeilRepQuasiModularForm)
    (h1 : f.depth = 0) (h2 : g.depth = 0) :
    f.mul g = ⟨f.weight + g.weight, gramDirectSum f.gram g.gram,
      [⟨f.weight + g.weight, gramDirectSum f.gram g.gram,
        (mulAccum f g 0).fe⟩]⟩ := by
  rw [mul_eq_init]
  have hone : (mulTerms f g).length = 1 := by
    rw [length_mulTerms, h1, h2]
  obtain ⟨b, hb⟩ := List.length_eq_one.mp hone
  have hb0 : b = mulAccum f g 0 := by
    have hg0 := getD_mulTerms f g 0 (by omega)
    rw [hb] at hg0
    simpa using hg0
  rw [hb, init_singleton, hb0]

/-- Uniform component count and shape of the tensor-product terms,
expanded regime. -/
theorem terms_unif_mul_heads (f g : WeilRepQuasiModularForm)
    (L1 L2 : ℕ) (sh1 sh2 : List ℚ)
    (hfne : f.terms ≠ []) (hgne : g.terms ≠ [])
    (hT1 : ∀ t ∈ f.terms, t.fe.length = L1)
    (hT2 : ∀ t ∈ g.terms, t.fe.length = L2)
    (hsh1 : ∀ t ∈ f.terms, t.shape = sh1)
    (hsh2 : ∀ t ∈ g.terms, t.shape = sh2)
    (hheadf : (f.terms.getD 0 WeilRepModularForm.dflt).isZero = false)
    (hheadg : (g.terms.getD 0 WeilRepModularForm.dflt).isZero = false)
    (hrs : 1 ≤ f.depth + g.depth) :
    ∀ t ∈ (f.mul g).terms, t.fe.length = L1 * L2 ∧ t.shape = pairShape sh1 sh2 := by
  rw [mul_struct_of_heads f g hheadf hheadg hrs]
  intro t ht
  dsimp only at ht
  rcases List.getElem_of_mem ht with ⟨m, hm, rfl⟩
  have hmr : m ≤ f.depth + g.depth := by
    rw [length_mulTerms] at hm
    omega
  rw [← List.getD_eq_getElem _ WeilRepModularForm.dflt hm]
  rw [getD_mulTerms f g m hmr]
  exact ⟨fe_length_mulAccum f g L1 L2 hfne hgne hT1 hT2 m hmr,
    shape_mulAccum f g sh1 sh2 hfne hgne hsh1 hsh2 m hmr⟩

/-- Uniform component count and shape of the tensor-product terms,
degenerate (depth 0) regime. -/
theorem terms_unif_mul_degenerate (f g : WeilRepQuasiModularForm)
    (L1 L2 : ℕ) (sh1 sh2 : List ℚ)
    (hfne : f.terms ≠ []) (hgne : g.terms ≠ [])
    (hT1 : ∀ t ∈ f.terms, t.fe.length = L1)
    (hT2 : ∀ t ∈ g.terms, t.fe.length = L2)
    (hsh1 : ∀ t ∈ f.terms, t.shape = sh1)
    (hsh2 : ∀ t ∈ g.terms, t.shape = sh2)
    (h1 : f.depth = 0) (h2 : g.depth = 0) :
    ∀ t ∈ (f.mul g).terms, t.fe.length = L1 * L2 ∧ t.shape = pairShape sh1 sh2 := by
  rw [mul_struct_degenerate f g h1 h2]
  intro t ht
  dsimp only at ht
  rw [List.mem_singleton] at ht
  subst ht
  constructor
  · show (mulAccum f g 0).fe.length = L1 * L2
    exact fe_length_mulAccum f g L1 L2 hfne hgne hT1 hT2 0 (by omega)
  · show (mulAccum f g 0).shape = pairShape sh1 sh2
    exact shape_mulAccum f g sh1 sh2 hfne hgne hsh1 hsh2 0 (by omega)

/-- Polynomial denotation of one lattice component of a quasimodular form:
coefficient `m` of the polynomial is the denotation of component `c` of
term `m` (proof infrastructure only). -/
noncomputable def qden (q : WeilRepQuasiModularForm) (c : ℕ) :
    Polynomial (AddMonoidAlgebra ℚ ℤ) :=
  ∑ m in Finset.range q.terms.length,
    Polynomial.C ((q.terms.getD m WeilRepModularForm.dflt).den c)
      * Polynomial.X ^ m

theorem qden_coeff (q : WeilRepQuasiModularForm) (c m : ℕ) :
    (qden q c).coeff m = if m < q.terms.length
      then (q.terms.getD m WeilRepModularForm.dflt).den c else 0 := by
  unfold qden
  rw [Polynomial.finset_sum_coeff]
  simp only [Polynomial.coeff_C_mul, Polynomial.coeff_X_pow]
  by_cases hm : m < q.terms.length
  · rw [Finset.sum_eq_single m]
    · rw [if_pos rfl, mul_one, if_pos hm]
    · intro k _ hne
      rw [if_neg (fun hc => hne hc.symm), mul_zero]
    · intro hno
      exact absurd (Finset.mem_range.mpr hm) hno
  · rw [if_neg hm]
    apply Finset.sum_eq_zero
    intro k hk
    rw [Finset.mem_range] at hk
    rw [if_neg (by omega), mul_zero]

theorem double_ite_antidiagonal (a b m : ℕ)
    (F G : ℕ → AddMonoidAlgebra ℚ ℤ) :
    (∑ i in Finset.range a, ∑ jj in Finset.range b,
        if i + jj = m then F i * G jj else 0)
      = ∑ p in Finset.antidiagonal m,
          (if p.1 < a then F p.1 else 0) * (if p.2 < b then G p.2 else 0) := by
  rw [Finset.Nat.sum_antidiagonal_eq_sum_range_succ_mk]
  have hinner : ∀ i, (∑ jj in Finset.range b,
      if i + jj = m then F i * G jj else 0)
      = if i ≤ m ∧ m - i < b then F i * G (m - i) else 0 := by
    intro i
    by_cases hc : i ≤ m ∧ m - i < b
    · rw [Finset.sum_eq_single (m - i)]
      · rw [if_pos (by omega), if_pos hc]
      · intro k _ hne
        rw [if_neg (by omega)]
      · intro hno
        exact absurd (Finset.mem_range.mpr hc.2) hno
    · rw [if_neg hc]
      apply Finset.sum_eq_zero
      intro k hk
      rw [Finset.mem_range] at hk
      rw [if_neg (by omega)]
  simp only [hinner]
  have hLg : (∑ i in Finset.range (a + m + 1),
      if i < a ∧ i ≤ m ∧ m - i < b then F i * G (m - i) else 0)
      = ∑ i in Finset.range a, if i ≤ m ∧ m - i < b then F i * G (m - i) else 0 := by
    rw [← Finset.sum_subset (Finset.range_subset.mpr (by omega : a ≤ a + m + 1))
      (fun i _ hni => by
        rw [Finset.mem_range] at hni
        exact if_neg (fun hc => hni hc.1))]
    apply Finset.sum_congr rfl
    intro i hi
    rw [Finset.mem_range] at hi
    by_cases hc : i ≤ m ∧ m - i < b
    · rw [if_pos ⟨hi, hc.1, hc.2⟩, if_pos hc]
    · rw [if_neg (fun hc2 => hc ⟨hc2.2.1, hc2.2.2⟩), if_neg hc]
  have hRg : (∑ i in Finset.range (a + m + 1),
      if i < a ∧ i ≤ m ∧ m - i < b then F i * G (m - i) else 0)
      = ∑ i in Finset.range (m + 1),
        (if i < a then F i else 0) * (if m - i < b then G (m - i) else 0) := by
    rw [← Finset.sum_subset (Finset.range_subset.mpr (by omega : m + 1 ≤ a + m + 1))
      (fun i _ hni => by
        rw [Finset.mem_range] at hni
        exact if_neg (fun hc => hni (by omega)))]
    apply Finset.sum_congr rfl
    intro i hi
    rw [Finset.mem_range] at hi
    by_cases hc1 : i < a
    · by_cases hc2 : m - i < b
      · rw [if_pos ⟨hc1, by omega, hc2⟩, if_pos hc1, if_pos hc2]
      · rw [if_neg (fun hc => hc2 hc.2.2), if_pos hc1, if_neg hc2, mul_zero]
    · rw [if_neg (fun hc => hc1 hc.1), if_neg hc1, zero_mul]
  rw [← hLg, hRg]

end WeilRepQuasiModularForm

namespace WeilRepQuasiModularForm

/-- Multiplicativity of the polynomial denotation: component `c1 * L2 + c2`
of the tensor product denotes the product of the factors' denotations. -/
theorem qden_mul (f g : WeilRepQuasiModularForm) (L1 L2 : ℕ)
    (hfne : f.terms ≠ []) (hgne : g.terms ≠ [])
    (hT1 : ∀ t ∈ f.terms, t.fe.length = L1)
    (hT2 : ∀ t ∈ g.terms, t.fe.length = L2)
    (hcase : (f.depth = 0 ∧ g.depth = 0) ∨
      ((f.terms.getD 0 WeilRepModularForm.dflt).isZero = false ∧
        (g.terms.getD 0 WeilRepModularForm.dflt).isZero = false ∧
        1 ≤ f.depth + g.depth))
    (c1 c2 : ℕ) (hc1 : c1 < L1) (hc2 : c2 < L2) :
    qden (f.mul g) (c1 * L2 + c2) = qden f c1 * qden g c2 := by
  have hkey : (f.mul g).terms.length = f.depth + g.depth + 1 ∧
      ∀ m, m ≤ f.depth + g.depth →
        ((f.mul g).terms.getD m WeilRepModularForm.dflt).den (c1 * L2 + c2)
          = (mulAccum f g m).den (c1 * L2 + c2) := by
    rcases hcase with ⟨h1, h2⟩ | ⟨hh1, hh2, hrs⟩
    · rw [mul_struct_degenerate f g h1 h2]
      dsimp only
      refine ⟨by rw [h1, h2]; rfl, ?_⟩
      intro m hm
      rw [h1, h2] at hm
      have hm0 : m = 0 := by omega
      subst hm0
      exact WeilRepModularForm.den_congr_fe _ _ rfl _
    · rw [mul_struct_of_heads f g hh1 hh2 hrs]
      dsimp only
      refine ⟨by rw [length_mulTerms], ?_⟩
      intro m hm
      rw [getD_mulTerms f g m hm]
  have hcoeR : ∀ p : ℕ × ℕ, (qden f c1).coeff p.1 * (qden g c2).coeff p.2
      = (if p.1 < f.depth + 1
          then (f.terms.getD p.1 WeilRepModularForm.dflt).den c1 else 0)
        * (if p.2 < g.depth + 1
          then (g.terms.getD p.2 WeilRepModularForm.dflt).den c2 else 0) := by
    intro p
    rw [qden_coeff, qden_coeff, terms_length_eq f hfne, terms_length_eq g hgne]
  apply Polynomial.ext
  intro m
  rw [Polynomial.coeff_mul]
  rw [qden_coeff, hkey.1]
  by_cases hm : m < f.depth + g.depth + 1
  · rw [if_pos hm]
    rw [hkey.2 m (by omega)]
    rw [den_mulAccum f g L1 L2 hfne hgne hT1 hT2 m (c1 * L2 + c2)]
    have hprod : ∀ i jj, i < f.depth + 1 → jj < g.depth + 1 →
        ((f.terms.getD i WeilRepModularForm.dflt).mul
          (g.terms.getD jj WeilRepModularForm.dflt)).den (c1 * L2 + c2)
        = (f.terms.getD i WeilRepModularForm.dflt).den c1
          * (g.terms.getD jj WeilRepModularForm.dflt).den c2 := by
      intro i jj hi hjj
      have hLg : (g.terms.getD jj WeilRepModularForm.dflt).fe.length = L2 :=
        hT2 _ (getD_mem_terms g hgne jj (by omega))
      rw [← hLg]
      exact WeilRepModularForm.den_mul_pair _ _ c1 c2
        (by rw [hT1 _ (getD_mem_terms f hfne i (by omega))]; exact hc1)
        (by rw [hLg]; exact hc2)
    have hsum : (∑ i in Finset.range (f.depth + 1),
        ∑ jj in Finset.range (g.depth + 1),
          if i + jj = m then
            ((f.terms.getD i WeilRepModularForm.dflt).mul
              (g.terms.getD jj WeilRepModularForm.dflt)).den (c1 * L2 + c2)
          else 0)
        = ∑ i in Finset.range (f.depth + 1),
            ∑ jj in Finset.range (g.depth + 1),
              if i + jj = m then
                (f.terms.getD i WeilRepModularForm.dflt).den c1
                  * (g.terms.getD jj WeilRepModularForm.dflt).den c2
              else 0 := by
      apply Finset.sum_congr rfl
      intro i hi
      apply Finset.sum_congr rfl
      intro jj hjj
      rw [Finset.mem_range] at hi hjj
      by_cases hc : i + jj = m
      · rw [if_pos hc, if_pos hc, hprod i jj hi hjj]
      · rw [if_neg hc, if_neg hc]
    rw [hsum, double_ite_antidiagonal]
    apply Finset.sum_congr rfl
    intro p _
    rw [hcoeR p]
  · rw [if_neg hm]
    symm
    apply Finset.sum_eq_zero
    intro p hp
    rw [Finset.mem_antidiagonal] at hp
    rw [hcoeR p]
    by_cases h1 : p.1 < f.depth + 1
    · rw [if_neg (by omega : ¬ p.2 < g.depth + 1), mul_zero]
    · rw [if_neg h1, zero_mul]

end WeilRepQuasiModularForm

theorem pairShape_length (a b : List ℚ) :
    (pairShape a b).length = a.length * b.length :=
  length_flatMap_const a b (fun o1 o2 => o1 + o2)

theorem pairShape_assoc (a b c : List ℚ) :
    pairShape (pairShape a b) c = pairShape a (pairShape b c) := by
  unfold pairShape
  rw [List.flatMap_assoc]
  congr 1
  funext x
  rw [List.flatMap_map, List.map_flatMap]
  congr 1
  funext y
  rw [List.map_map]
  apply List.map_congr_left
  intro z _
  show (x + y) + z = x + (y + z)
  ring

theorem gramDirectSum_assoc (A B C : List (List ℤ)) :
    gramDirectSum (gramDirectSum A B) C = gramDirectSum A (gramDirectSum B C) := by
  unfold gramDirectSum
  simp only [List.map_append, List.map_map, List.length_append, List.length_map]
  rw [List.append_assoc]
  congr 1
  · apply List.map_congr_left
    intro row _
    show (row ++ List.replicate B.length 0) ++ List.replicate C.length 0
      = row ++ List.replicate (B.length + C.length) 0
    rw [List.append_assoc, List.replicate_add]
  congr 1
  · apply List.map_congr_left
    intro row _
    show (List.replicate A.length 0 ++ row) ++ List.replicate C.length 0
      = List.replicate A.length 0 ++ (row ++ List.replicate C.length 0)
    rw [List.append_assoc]
  · apply List.map_congr_left
    intro row _
    show List.replicate (A.length + B.length) 0 ++ row
      = List.replicate A.length 0 ++ (List.replicate B.length 0 ++ row)
    rw [List.replicate_add, List.append_assoc]

namespace WeilRepQuasiModularForm

/-- Invariant carried through iterated tensor products: nonempty term
list, every term with the same offset structure `sh`, and either a plain
(depth 0) form or an expanded form with truthy leading term. -/
def Tower (q : WeilRepQuasiModularForm) (sh : List ℚ) : Prop :=
  q.terms ≠ [] ∧
    (∀ t ∈ q.terms, t.fe.length = sh.length ∧ t.shape = sh) ∧
    (q.depth = 0 ∨
      ((q.terms.getD 0 WeilRepModularForm.dflt).isZero = false ∧ 1 ≤ q.depth))

theorem Tower_hcase (x y : WeilRepQuasiModularForm) (shx shy : List ℚ)
    (hx : Tower x shx) (hy : Tower y shy)
    (hxy : (x.depth = 0 ∧ y.depth = 0) ∨ (1 ≤ x.depth ∧ 1 ≤ y.depth)) :
    (x.depth = 0 ∧ y.depth = 0) ∨
      ((x.terms.getD 0 WeilRepModularForm.dflt).isZero = false ∧
        (y.terms.getD 0 WeilRepModularForm.dflt).isZero = false ∧
        1 ≤ x.depth + y.depth) := by
  rcases hxy with ⟨h1, h2⟩ | ⟨h1, h2⟩
  · exact Or.inl ⟨h1, h2⟩
  · have hhx := (hx.2.2.resolve_left (by omega)).1
    have hhy := (hy.2.2.resolve_left (by omega)).1
    exact Or.inr ⟨hhx, hhy, by omega⟩

theorem Tower_mul (x y : WeilRepQuasiModularForm) (shx shy : List ℚ)
    (hx : Tower x shx) (hy : Tower y shy)
    (hxy : (x.depth = 0 ∧ y.depth = 0) ∨ (1 ≤ x.depth ∧ 1 ≤ y.depth)) :
    Tower (x.mul y) (pairShape shx shy) ∧
      (x.mul y).depth = x.depth + y.depth := by
  have hT1 : ∀ t ∈ x.terms, t.fe.length = shx.length := fun t ht => (hx.2.1 t ht).1
  have hT2 : ∀ t ∈ y.terms, t.fe.length = shy.length := fun t ht => (hy.2.1 t ht).1
  have hsh1 : ∀ t ∈ x.terms, t.shape = shx := fun t ht => (hx.2.1 t ht).2
  have hsh2 : ∀ t ∈ y.terms, t.shape = shy := fun t ht => (hy.2.1 t ht).2
  have hunif : ∀ t ∈ (x.mul y).terms,
      t.fe.length = shx.length * shy.length ∧ t.shape = pairShape shx shy := by
    rcases hxy with ⟨h1, h2⟩ | ⟨h1, h2⟩
    · exact terms_unif_mul_degenerate x y shx.length shy.length shx shy
        hx.1 hy.1 hT1 hT2 hsh1 hsh2 h1 h2
    · have hhx := (hx.2.2.resolve_left (by omega)).1
      have hhy := (hy.2.2.resolve_left (by omega)).1
      exact terms_unif_mul_heads x y shx.length shy.length shx shy
        hx.1 hy.1 hT1 hT2 hsh1 hsh2 hhx hhy (by omega)
  have hunif2 : ∀ t ∈ (x.mul y).terms,
      t.fe.length = (pairShape shx shy).length ∧ t.shape = pairShape shx shy :=
    fun t ht => ⟨by rw [pairShape_length]; exact (hunif t ht).1, (hunif t ht).2⟩
  rcases hxy with ⟨h1, h2⟩ | ⟨h1, h2⟩
  · have hstruct := mul_struct_degenerate x y h1 h2
    have hne : (x.mul y).terms ≠ [] := by
      rw [hstruct]
      simp
    have hdepth : (x.mul y).depth = 0 := by
      rw [hstruct]
      rfl
    refine ⟨⟨hne, hunif2, Or.inl hdepth⟩, by omega⟩
  · have hhx := (hx.2.2.resolve_left (by omega)).1
    have hhy := (hy.2.2.resolve_left (by omega)).1
    have hstruct := mul_struct_of_heads x y hhx hhy (by omega)
    have hne : (x.mul y).terms ≠ [] := by
      rw [hstruct]
      apply List.ne_nil_of_length_pos
      show 0 < (mulTerms x y).length
      rw [length_mulTerms]
      omega
    have hdepth : (x.mul y).depth = x.depth + y.depth := by
      have hd : (x.mul y).depth = (mulTerms x y).length - 1 := by
        rw [hstruct]
        rfl
      rw [hd, length_mulTerms]
      omega
    have hhead : ((x.mul y).terms.getD 0 WeilRepModularForm.dflt).isZero = false := by
      rw [hstruct]
      show ((mulTerms x y).getD 0 WeilRepModularForm.dflt).isZero = false
      rw [getD_mulTerms x y 0 (by omega), mulAccum_zero]
      exact WeilRepModularForm.isZero_mul_form _ _ hhx hhy
    refine ⟨⟨hne, hunif2, Or.inr ⟨hhead, by omega⟩⟩, hdepth⟩

end WeilRepQuasiModularForm

theorem WeilRepModularForm.series_of_le (b : WeilRepModularForm) (c : ℕ)
    (h : b.fe.length ≤ c) : b.series c = WeilRepModularForm.dfltC.2 := by
  unfold WeilRepModularForm.series
  rw [List.getD_eq_default _ _ h]

namespace WeilRepQuasiModularForm

theorem weight_mul (f g : WeilRepQuasiModularForm) :
    (f.mul g).weight = f.weight + g.weight := by
  rw [mul_eq_init, weight_init]

theorem gram_mul (f g : WeilRepQuasiModularForm) :
    (f.mul g).gram = gramDirectSum f.gram g.gram := by
  rw [mul_eq_init, gram_init]

theorem den_eq_of_qden_eq (p q : WeilRepQuasiModularForm) (c m : ℕ)
    (hlen : p.terms.length = q.terms.length)
    (hq : qden p c = qden q c) :
    (p.terms.getD m WeilRepModularForm.dflt).den c
      = (q.terms.getD m WeilRepModularForm.dflt).den c := by
  by_cases hm : m < p.terms.length
  · have h2 : m < q.terms.length := by omega
    have h3 := congrArg (fun P => Polynomial.coeff P m) hq
    simp only [qden_coeff] at h3
    rw [if_pos hm, if_pos h2] at h3
    exact h3
  · rw [List.getD_eq_default _ _ (by omega), List.getD_eq_default _ _ (by omega)]

theorem coeff_eq_of_den_eq (b b' : WeilRepModularForm) (c : ℕ) (n : ℤ)
    (h : b.den c = b'.den c) :
    (b.series c).coeff n = (b'.series c).coeff n := by
  have h2 := congrArg (fun d : AddMonoidAlgebra ℚ ℤ => d n) h
  simpa [WeilRepModularForm.den, PSeries.den_apply] using h2

/-- Term-wise equality of trimmed quasimodular forms: same weight, Gram
matrix and number of terms, and every term has the same offset structure
and the same `q`-expansion coefficients in every component. -/
def EquivForms (p q : WeilRepQuasiModularForm) : Prop :=
  p.weight = q.weight ∧ p.gram = q.gram ∧ p.terms.length = q.terms.length ∧
    ∀ m : ℕ,
      (p.terms.getD m WeilRepModularForm.dflt).shape
          = (q.terms.getD m WeilRepModularForm.dflt).shape ∧
      ∀ c : ℕ, ∀ n : ℤ,
        ((p.terms.getD m WeilRepModularForm.dflt).series c).coeff n
          = ((q.terms.getD m WeilRepModularForm.dflt).series c).coeff n

theorem EquivForms_of_qden (p q : WeilRepQuasiModularForm) (sh4 : List ℚ)
    (hw : p.weight = q.weight) (hg : p.gram = q.gram)
    (hlen : p.terms.length = q.terms.length)
    (hp : ∀ t ∈ p.terms, t.fe.length = sh4.length ∧ t.shape = sh4)
    (hq : ∀ t ∈ q.terms, t.fe.length = sh4.length ∧ t.shape = sh4)
    (hqd : ∀ c, c < sh4.length → qden p c = qden q c) :
    EquivForms p q := by
  refine ⟨hw, hg, hlen, fun m => ⟨?_, ?_⟩⟩
  · by_cases hm : m < p.terms.length
    · have hpne : p.terms ≠ [] := List.ne_nil_of_length_pos (by omega)
      have hqne : q.terms ≠ [] := List.ne_nil_of_length_pos (by omega)
      have hmp : m ≤ p.depth := by
        have := terms_length_eq p hpne
        omega
      have hmq : m ≤ q.depth := by
        have := terms_length_eq q hqne
        omega
      rw [(hp _ (getD_mem_terms p hpne m hmp)).2,
        (hq _ (getD_mem_terms q hqne m hmq)).2]
    · rw [List.getD_eq_default _ _ (by omega), List.getD_eq_default _ _ (by omega)]
  · intro c n
    by_cases hc : c < sh4.length
    · exact coeff_eq_of_den_eq _ _ c n (den_eq_of_qden_eq p q c m hlen (hqd c hc))
    · by_cases hm : m < p.terms.length
      · have hpne : p.terms ≠ [] := List.ne_nil_of_length_pos (by omega)
        have hqne : q.terms ≠ [] := List.ne_nil_of_length_pos (by omega)
        have hmp : m ≤ p.depth := by
          have := terms_length_eq p hpne
          omega
        have hmq : m ≤ q.depth := by
          have := terms_length_eq q hqne
          omega
        rw [WeilRepModularForm.series_of_le _ c (by
            rw [(hp _ (getD_mem_terms p hpne m hmp)).1]; omega),
          WeilRepModularForm.series_of_le _ c (by
            rw [(hq _ (getD_mem_terms q hqne m hmq)).1]; omega)]
      · rw [List.getD_eq_default _ _ (by omega), List.getD_eq_default _ _ (by omega)]

end WeilRepQuasiModularForm

namespace WeilRepQuasiModularForm

theorem qden_mul_tower (x y : WeilRepQuasiModularForm) (shx shy : List ℚ)
    (hx : Tower x shx) (hy : Tower y shy)
    (hxy : (x.depth = 0 ∧ y.depth = 0) ∨ (1 ≤ x.depth ∧ 1 ≤ y.depth))
    (c : ℕ) (hc : c < shx.length * shy.length) (hLy : 0 < shy.length) :
    qden (x.mul y) c = qden x (c / shy.length) * qden y (c % shy.length) := by
  have hc1 : c / shy.length < shx.length := (Nat.div_lt_iff_lt_mul hLy).mpr hc
  have hc2 : c % shy.length < shy.length := Nat.mod_lt _ hLy
  have hT1 : ∀ t ∈ x.terms, t.fe.length = shx.length := fun t ht => (hx.2.1 t ht).1
  have hT2 : ∀ t ∈ y.terms, t.fe.length = shy.length := fun t ht => (hy.2.1 t ht).1
  have h := qden_mul x y shx.length shy.length hx.1 hy.1 hT1 hT2
    (Tower_hcase x y shx shy hx hy hxy) (c / shy.length) (c % shy.length) hc1 hc2
  have hdecomp : c / shy.length * shy.length + c % shy.length = c := by
    rw [Nat.mul_comm]
    exact Nat.div_add_mod c shy.length
  rw [hdecomp] at h
  exact h

theorem pow_eq (f : WeilRepQuasiModularForm) (N : ℤ) :
    f.pow N = if N = 1 then .ok f
      else if 1 < N then
        (f.pow (N / 2)).bind fun x =>
          (f.pow (N - N / 2)).map fun y => x.mul y
      else .error "Invalid exponent" := by
  rw [pow]

end WeilRepQuasiModularForm

/-- **C6.** For every valid quasimodular form `f` (well-formed, with a
uniform offset structure `sh` across its terms) and integer `N`: `f ** 1`
returns `f` itself; for `N < 1` the operation fails with the
invalid-exponent error; for `N > 1` the power splits `N` into `N / 2` and
the remainder `N - N / 2` and tensor-multiplies the two recursive halves;
consequently `f ** 4` and `(f ** 2) ** 2` both evaluate to
`(f*f)*(f*f)`, and this agrees with the left-nested product
`((f*f)*f)*f` term-wise (same weight, Gram matrix, term count, offset
structures and `q`-expansion coefficients). -/
theorem pow_binary_law (f : WeilRepQuasiModularForm) (sh : List ℚ)
    (hwf : f.WF) (hsh : ∀ t ∈ f.terms, t.shape = sh) :
    f.pow 1 = .ok f ∧
    (∀ N : ℤ, N < 1 → f.pow N = .error "Invalid exponent") ∧
    (∀ N : ℤ, 1 < N → f.pow N
      = (f.pow (N / 2)).bind fun x =>
          (f.pow (N - N / 2)).map fun y => x.mul y) ∧
    f.pow 4 = .ok ((f.mul f).mul (f.mul f)) ∧
    (f.mul f).pow 2 = .ok ((f.mul f).mul (f.mul f)) ∧
    WeilRepQuasiModularForm.EquivForms ((f.mul f).mul (f.mul f))
      (((f.mul f).mul f).mul f) := by
  have hpow1 : ∀ g : WeilRepQuasiModularForm, g.pow 1 = .ok g := by
    intro g
    rw [WeilRepQuasiModularForm.pow_eq, if_pos rfl]
  have hlt : ∀ (g : WeilRepQuasiModularForm) (N : ℤ), N < 1 →
      g.pow N = .error "Invalid exponent" := by
    intro g N hN
    rw [WeilRepQuasiModularForm.pow_eq, if_neg (by omega), if_neg (by omega)]
  have hgt : ∀ (g : WeilRepQuasiModularForm) (N : ℤ), 1 < N →
      g.pow N = (g.pow (N / 2)).bind fun x =>
        (g.pow (N - N / 2)).map fun y => x.mul y := by
    intro g N hN
    rw [WeilRepQuasiModularForm.pow_eq, if_neg (by omega), if_pos hN]
  have hpow2 : ∀ g : WeilRepQuasiModularForm, g.pow 2 = .ok (g.mul g) := by
    intro g
    rw [hgt g 2 (by omega)]
    have h1 : (2:ℤ)/2 = 1 := by decide
    rw [h1]
    have h2 : (2:ℤ) - 1 = 1 := by decide
    rw [h2, hpow1]
    rfl
  have hpow4 : f.pow 4 = .ok ((f.mul f).mul (f.mul f)) := by
    rw [hgt f 4 (by omega)]
    have h1 : (4:ℤ)/2 = 2 := by decide
    rw [h1]
    have h2 : (4:ℤ) - 2 = 2 := by decide
    rw [h2, hpow2]
    rfl
  have htf : WeilRepQuasiModularForm.Tower f sh := by
    refine ⟨hwf.1, fun t ht => ⟨?_, hsh t ht⟩, ?_⟩
    · have := congrArg List.length (hsh t ht)
      simpa [WeilRepModularForm.shape] using this
    · rcases Nat.eq_zero_or_pos f.depth with h | h
      · exact Or.inl h
      · refine Or.inr ⟨?_, h⟩
        rw [← headD_eq_getD]
        apply hwf.2
        rw [WeilRepQuasiModularForm.terms_length_eq f hwf.1]
        omega
  have hxff : (f.depth = 0 ∧ f.depth = 0) ∨ (1 ≤ f.depth ∧ 1 ≤ f.depth) := by
    omega
  obtain ⟨htA, hdA⟩ := WeilRepQuasiModularForm.Tower_mul f f sh sh htf htf hxff
  have hxAf : ((f.mul f).depth = 0 ∧ f.depth = 0) ∨
      (1 ≤ (f.mul f).depth ∧ 1 ≤ f.depth) := by omega
  obtain ⟨htC, hdC⟩ := WeilRepQuasiModularForm.Tower_mul (f.mul f) f
    (pairShape sh sh) sh htA htf hxAf
  have hxAA : ((f.mul f).depth = 0 ∧ (f.mul f).depth = 0) ∨
      (1 ≤ (f.mul f).depth ∧ 1 ≤ (f.mul f).depth) := by omega
  obtain ⟨htP, hdP⟩ := WeilRepQuasiModularForm.Tower_mul (f.mul f) (f.mul f)
    (pairShape sh sh) (pairShape sh sh) htA htA hxAA
  have hxCf : (((f.mul f).mul f).depth = 0 ∧ f.depth = 0) ∨
      (1 ≤ ((f.mul f).mul f).depth ∧ 1 ≤ f.depth) := by omega
  obtain ⟨htQ, hdQ⟩ := WeilRepQuasiModularForm.Tower_mul ((f.mul f).mul f) f
    (pairShape (pairShape sh sh) sh) sh htC htf hxCf
  have hshape : pairShape (pairShape (pairShape sh sh) sh) sh
      = pairShape (pairShape sh sh) (pairShape sh sh) := by
    simp only [pairShape_assoc]
  have hw : ((f.mul f).mul (f.mul f)).weight = (((f.mul f).mul f).mul f).weight := by
    simp only [WeilRepQuasiModularForm.weight_mul]
    ring
  have hg : ((f.mul f).mul (f.mul f)).gram = (((f.mul f).mul f).mul f).gram := by
    simp only [WeilRepQuasiModularForm.gram_mul]
    simp only [gramDirectSum_assoc]
  have hlenPQ : ((f.mul f).mul (f.mul f)).terms.length
      = (((f.mul f).mul f).mul f).terms.length := by
    rw [WeilRepQuasiModularForm.terms_length_eq _ htP.1,
      WeilRepQuasiModularForm.terms_length_eq _ htQ.1]
    omega
  have hqq : ∀ t ∈ (((f.mul f).mul f).mul f).terms,
      t.fe.length = (pairShape (pairShape sh sh) (pairShape sh sh)).length ∧
        t.shape = pairShape (pairShape sh sh) (pairShape sh sh) := by
    intro t ht
    rw [← hshape]
    exact htQ.2.1 t ht
  have hqdeq : ∀ c, c < (pairShape (pairShape sh sh) (pairShape sh sh)).length →
      WeilRepQuasiModularForm.qden ((f.mul f).mul (f.mul f)) c = WeilRepQuasiModularForm.qden (((f.mul f).mul f).mul f) c := by
    intro c hc
    have hAlen : (pairShape sh sh).length = sh.length * sh.length :=
      pairShape_length sh sh
    have hc' : c < (sh.length * sh.length) * (sh.length * sh.length) := by
      rw [pairShape_length, hAlen] at hc
      exact hc
    have hL : 0 < sh.length := by
      rcases Nat.eq_zero_or_pos sh.length with h0 | h0
      · rw [h0] at hc'
        simp at hc'
      · exact h0
    have hL2 : 0 < sh.length * sh.length := Nat.mul_pos hL hL
    have e1 : WeilRepQuasiModularForm.qden ((f.mul f).mul (f.mul f)) c
        = WeilRepQuasiModularForm.qden (f.mul f) (c / (sh.length * sh.length))
          * WeilRepQuasiModularForm.qden (f.mul f) (c % (sh.length * sh.length)) := by
      have h := WeilRepQuasiModularForm.qden_mul_tower (f.mul f) (f.mul f)
        (pairShape sh sh) (pairShape sh sh) htA htA hxAA c
        (by rw [hAlen]; exact hc') (by rw [hAlen]; exact hL2)
      rw [hAlen] at h
      exact h
    have e2 : WeilRepQuasiModularForm.qden (f.mul f) (c / (sh.length * sh.length))
        = WeilRepQuasiModularForm.qden f (c / (sh.length * sh.length) / sh.length)
          * WeilRepQuasiModularForm.qden f (c / (sh.length * sh.length) % sh.length) :=
      WeilRepQuasiModularForm.qden_mul_tower f f sh sh htf htf hxff _
        ((Nat.div_lt_iff_lt_mul hL2).mpr hc') hL
    have e3 : WeilRepQuasiModularForm.qden (f.mul f) (c % (sh.length * sh.length))
        = WeilRepQuasiModularForm.qden f (c % (sh.length * sh.length) / sh.length)
          * WeilRepQuasiModularForm.qden f (c % (sh.length * sh.length) % sh.length) :=
      WeilRepQuasiModularForm.qden_mul_tower f f sh sh htf htf hxff _
        (Nat.mod_lt _ hL2) hL
    have hClen : (pairShape (pairShape sh sh) sh).length
        = (sh.length * sh.length) * sh.length := by
      rw [pairShape_length, hAlen]
    have e4 : WeilRepQuasiModularForm.qden (((f.mul f).mul f).mul f) c
        = WeilRepQuasiModularForm.qden ((f.mul f).mul f) (c / sh.length) * WeilRepQuasiModularForm.qden f (c % sh.length) := by
      have h := WeilRepQuasiModularForm.qden_mul_tower ((f.mul f).mul f) f
        (pairShape (pairShape sh sh) sh) sh htC htf hxCf c
        (by rw [hClen, Nat.mul_assoc]; exact hc') hL
      exact h
    have e5 : WeilRepQuasiModularForm.qden ((f.mul f).mul f) (c / sh.length)
        = WeilRepQuasiModularForm.qden (f.mul f) (c / sh.length / sh.length)
          * WeilRepQuasiModularForm.qden f (c / sh.length % sh.length) := by
      have h := WeilRepQuasiModularForm.qden_mul_tower (f.mul f) f
        (pairShape sh sh) sh htA htf hxAf (c / sh.length)
        (by
          rw [hAlen]
          exact (Nat.div_lt_iff_lt_mul hL).mpr (by rw [Nat.mul_assoc]; exact hc')) hL
      exact h
    have e6 : WeilRepQuasiModularForm.qden (f.mul f) (c / sh.length / sh.length)
        = WeilRepQuasiModularForm.qden f (c / sh.length / sh.length / sh.length)
          * WeilRepQuasiModularForm.qden f (c / sh.length / sh.length % sh.length) :=
      WeilRepQuasiModularForm.qden_mul_tower f f sh sh htf htf hxff _
        ((Nat.div_lt_iff_lt_mul hL).mpr
          ((Nat.div_lt_iff_lt_mul hL).mpr (by rw [Nat.mul_assoc]; exact hc'))) hL
    rw [e1, e2, e3, e4, e5, e6]
    have i1 : c / (sh.length * sh.length) = c / sh.length / sh.length :=
      (Nat.div_div_eq_div_mul c sh.length sh.length).symm
    have i3 : c % (sh.length * sh.length) / sh.length = c / sh.length % sh.length :=
      Nat.mod_mul_right_div_self c sh.length sh.length
    have i4 : c % (sh.length * sh.length) % sh.length = c % sh.length :=
      Nat.mod_mod_of_dvd c (dvd_mul_left sh.length sh.length)
    rw [i1, i3, i4]
    ring
  refine ⟨hpow1 f, fun N hN => hlt f N hN, fun N hN => hgt f N hN, hpow4,
    hpow2 (f.mul f), ?_⟩
  exact WeilRepQuasiModularForm.EquivForms_of_qden _ _
    (pairShape (pairShape sh sh) (pairShape sh sh)) hw hg hlenPQ htP.2.1 hqq hqdeq

theorem pow_binary_law_witness :
    wQ1.WF ∧ (∀ t ∈ wQ1.terms, t.shape = [0]) ∧
      WeilRepQuasiModularForm.EquivForms ((wQ1.mul wQ1).mul (wQ1.mul wQ1))
        (((wQ1.mul wQ1).mul wQ1).mul wQ1) :=
  ⟨by decide, by decide,
    (pow_binary_law wQ1 [0] (by decide) (by decide)).2.2.2.2.2⟩
